import Mathlib

/-!
Verification of the symbol-resolution engine of `dependencies.py`.

The Python source is shallowly embedded: Python `dict`s (ordered, with
in-place value update on key collision) become association lists over
`String` keys, the three external tools (`file`, `ldd`, `nm`) are modelled
by their already-matched line data or by environment functions, and
exceptions become `Except String`.
-/

namespace Dependencies

/-- Python `dict` membership test (`key in d`). -/
def dictContains {β : Type} (d : List (String × β)) (k : String) : Bool :=
  d.any (fun p => p.1 == k)

/-- Python `dict.get`: first binding of the key, if any. -/
def dictFind {α β : Type} [BEq α] (d : List (α × β)) (k : α) : Option β :=
  match d.find? (fun p => p.1 == k) with
  | some p => some p.2
  | none => none

/-- Python `d[key]` lookup with a default for totality (the source only
performs lookups that are guaranteed to succeed). -/
def dictFindD {β : Type} (d : List (String × β)) (k : String) (dflt : β) : β :=
  match dictFind d k with
  | some v => v
  | none => dflt

/-- Python `d[key] = value`: updates the value in place when the key is
present (keeping its position), otherwise appends the new binding. -/
def dictInsert {β : Type} (d : List (String × β)) (k : String) (v : β) :
    List (String × β) :=
  if dictContains d k then d.map (fun p => if p.1 == k then (p.1, v) else p)
  else d ++ [(k, v)]

/-- `_merge_dict` (dependencies.py lines 50-54): copies `first`, then adds
the entries of `second` whose keys are not already present. -/
def mergeDict (first second : Option (List (String × String))) :
    List (String × String) :=
  let merged := match first with
    | some d => d
    | none => []
  match second with
  | some d => merged ++ d.filter (fun p => !(dictContains merged p.1))
  | none => merged

/-- `_is_weak_symbol` (lines 56-57): a type string is weak iff it is
nonempty and its last character is one of `V`, `v`, `W`, `w`. -/
def isWeakSymbol (symbolType : String) : Bool :=
  match symbolType.data.getLast? with
  | some c => c == 'V' || c == 'v' || c == 'W' || c == 'w'
  | none => false

/-- Python `type[-1]` as a one-character string (the source only applies it
to nonempty type strings). -/
def strLast (t : String) : String :=
  match t.data.getLast? with
  | some c => String.mk [c]
  | none => ""

/-- Python `type.startswith('~')`. -/
def startsWithTilde (t : String) : Bool :=
  match t.data with
  | c :: _ => c == '~'
  | [] => false

/-- Python `library.startswith("/")`. -/
def startsWithSlash (s : String) : Bool :=
  match s.data with
  | c :: _ => c == '/'
  | [] => false

/-- `os.path.basename`: everything after the last `/` (the whole string
when no `/` occurs). -/
def pathBasename (s : String) : String :=
  match (s.splitOn "/").getLast? with
  | some t => t
  | none => s

/-- The process-wide fact cache: `_lazy_compute` keys it by the canonical
JSON encoding of the `(category, name)` pair, which is injective, so the
pair itself serves as the key; all three cached fact kinds are string
dictionaries. -/
abbrev Cache := List ((String × String) × List (String × String))

/-- `_lazy_compute` (lines 45-48): return the cached value when the
`(category, key)` entry is present, otherwise run the factory, append the
result to the cache (`dict.setdefault` appends new keys at the end) and
return it.  `deepcopy` is the identity in this pure model. -/
def lazyCompute (cache : Cache) (category key : String)
    (factory : String → List (String × String)) :
    List (String × String) × Cache :=
  match dictFind cache (category, key) with
  | some v => (v, cache)
  | none => (factory key, cache ++ [((category, key), factory key)])

/-- One line of `ldd` output, as matched by the Linux regex of
`_detect_dependencies`: either no match, or the captured library name
(group 1) and optional captured path (group 3; `none` when the `=>` part
is absent, `some ""` when `=>` is present with an empty target). -/
inductive LddLine : Type
  | noMatch : LddLine
  | matched : String → Option String → LddLine

/-- The loop body of `_detect_dependencies` on one matched line: a
nonempty path other than `"not found"` records the library under its
declared name; an absent or empty path records an absolute library name
under its basename; everything else is skipped. -/
def lddLineStep (resolve : String → String) (deps : List (String × String)) :
    LddLine → List (String × String)
  | .noMatch => deps
  | .matched library path =>
    match path with
    | some p =>
      if p != "" then
        (if p != "not found" then dictInsert deps library (resolve p) else deps)
      else if startsWithSlash library then
        dictInsert deps (pathBasename library) (resolve library)
      else deps
    | none =>
      if startsWithSlash library then
        dictInsert deps (pathBasename library) (resolve library)
      else deps

/-- `_detect_dependencies` (lines 81-109), Linux branch, over pre-matched
lines; `resolve` stands for `realpath(normpath(.))`.  The nonzero-exit
check of `ldd` happens after the loop, as in the source. -/
def detectDependencies (resolve : String → String) (lines : List LddLine)
    (errorCode : Int) : Except String (List (String × String)) :=
  let dependencies := lines.foldl (lddLineStep resolve) []
  if errorCode != 0 then .error "Failed to detect dependencies!"
  else .ok dependencies

/-- One line of `nm -D -p` output, as matched by `regex_line` of
`_detect_symbols`: the optional address capture (group 1, which always
ends in whitespace when present), the one-letter type code (group 2) and
the symbol name (group 3). -/
inductive NmLine : Type
  | noMatch : NmLine
  | matched : Option String → Char → String → NmLine

/-- `regex_zero` = `^0+$` via `re.search`: the string is a nonempty run of
`0`s, optionally followed by one final newline. -/
def regexZeroMatches (s : String) : Bool :=
  let t := if s.data.getLast? == some '\n' then s.data.dropLast else s.data
  !t.isEmpty && t.all (fun c => c == '0')

/-- A character allowed inside the two capture groups of `regex_name` =
`([^@\s]+)@@([^@\s]+)`. -/
def versionChar (c : Char) : Bool :=
  c != '@' && !c.isWhitespace

/-- Worker for `searchVersioned`, structurally recursive on a fuel bound
so that the kernel can evaluate it; every recursive call consumes at
least one character, so fuel equal to the list length always suffices. -/
def searchVersionedAux : Nat → List Char → Option (String × String)
  | 0, _ => none
  | _ + 1, [] => none
  | fuel + 1, c :: rest =>
    if versionChar c then
      match rest.dropWhile versionChar with
      | '@' :: '@' :: rest2 =>
        let r2 := rest2.takeWhile versionChar
        if !r2.isEmpty then
          some (String.mk (c :: rest.takeWhile versionChar), String.mk r2)
        else searchVersionedAux fuel (rest.dropWhile versionChar)
      | _ => searchVersionedAux fuel (rest.dropWhile versionChar)
    else searchVersionedAux fuel rest

/-- `re.search` of `regex_name` on a symbol name: the leftmost occurrence
of a nonempty run of version characters, followed by `@@`, followed by a
nonempty run of version characters; returns the two captured runs. -/
def searchVersioned (l : List Char) : Option (String × String) :=
  searchVersionedAux l.length l

/-- The defined/undefined classification of one matched `nm` line (line
126): a truthy, not-all-zero address together with a type code other than
`U`. -/
def isDefinedLine (address : Option String) (symbolType : Char) : Bool :=
  (match address with
   | some a => a != "" && !(regexZeroMatches a)
   | none => false) && symbolType != 'U'

/-- The loop body of `_detect_symbols` on one matched line: keep the line
when its defined/undefined classification matches the requested kind; a
name containing `BASE@@VERSION` yields the two records
`BASE@VERSION ↦ type` and `BASE ↦ ~type`, any other name one record. -/
def nmLineStep (getDefined : Bool) (syms : List (String × String)) :
    NmLine → List (String × String)
  | .noMatch => syms
  | .matched address symbolType symbolName =>
    if (if getDefined then isDefinedLine address symbolType
        else !(isDefinedLine address symbolType)) then
      match searchVersioned symbolName.data with
      | some (base, version) =>
        dictInsert (dictInsert syms (base ++ "@" ++ version) (String.mk [symbolType]))
          base ("~" ++ String.mk [symbolType])
      | none => dictInsert syms symbolName (String.mk [symbolType])
    else syms

/-- `_detect_symbols` (lines 115-139) over pre-matched lines.  The
nonzero-exit check of `nm` happens after the loop, as in the source. -/
def detectSymbols (lines : List NmLine) (errorCode : Int) (getDefined : Bool) :
    Except String (List (String × String)) :=
  let dynamicSymbols := lines.foldl (nmLineStep getDefined) []
  if errorCode != 0 then .error "Failed to read symbol table!"
  else .ok dynamicSymbols

/-- The eligibility test of the resolver's stage sweep (lines 174-175):
stage 0 admits only non-alias (`~`-free) non-weak records, stage 1 admits
non-alias records of any strength, stage 2 admits everything. -/
def eligibleAtStage (stage : Nat) (ty : String) : Bool :=
  (decide (stage > 1) || !(startsWithTilde ty)) &&
    (decide (stage > 0) || !(isWeakSymbol ty))

/-- The inner symbol loop of one library at one stage (lines 172-177):
walk the library's exported symbols in order; claim each one that is not
already found, is imported, and is eligible at this stage, recording
`(name, type[-1])` in the library's accumulator and the name in the found
set. -/
def processLibrary (stage : Nat) (imported : List (String × String)) :
    List (String × String) → List String → List (String × String) →
    List String × List (String × String)
  | [], found, acc => (found, acc)
  | (name, ty) :: rest, found, acc =>
    if !(found.contains name) && dictContains imported name then
      if eligibleAtStage stage ty then
        processLibrary stage imported rest (name :: found) (acc ++ [(name, strLast ty)])
      else processLibrary stage imported rest found acc
    else processLibrary stage imported rest found acc

/-- One full stage (the `for library in dependencies` loop of lines
169-177): walk the per-library accumulators in dependency order, letting
each library claim from its exported symbols. -/
def runStage (stage : Nat) (imported : List (String × String))
    (exported : List (String × List (String × String))) :
    List String → List (String × List (String × String)) →
    List String × List (String × List (String × String))
  | found, [] => (found, [])
  | found, (soname, acc) :: rest =>
    let r := processLibrary stage imported (dictFindD exported soname []) found acc
    let r2 := runStage stage imported exported r.1 rest
    (r2.1, (soname, r.2) :: r2.2)

/-- The stage loop (lines 168-179): run the given stages in order,
stopping early as soon as every imported symbol has been found. -/
def runStages (imported : List (String × String))
    (exported : List (String × List (String × String))) :
    List Nat → List String × List (String × List (String × String)) →
    List String × List (String × List (String × String))
  | [], st => st
  | stage :: rest, st =>
    let st' := runStage stage imported exported st.1 st.2
    if imported.all (fun p => st'.1.contains p.1) then st'
    else runStages imported exported rest st'

/-- One entry of the result list of `process_file_recursive`: a library
entry carries its soname, resolved path and claimed symbols; the
unresolved bucket has `soname = none` and no path key. -/
structure ResultEntry where
  soname : Option String
  path : Option String
  symbols : List (String × String)
deriving DecidableEq, Repr

/-- Lexicographic comparison of character lists by code point, the order
Python uses to compare strings. -/
def charListLe : List Char → List Char → Bool
  | [], _ => true
  | _ :: _, [] => false
  | a :: as, b :: bs => if a == b then charListLe as bs else decide (a < b)

/-- Python string comparison (`<=`): lexicographic by code point. -/
def strLe (a b : String) : Bool := charListLe a.data b.data

/-- Stable insertion into a list sorted by first component: the new pair
goes before the first existing key that is `≥` its own; since the sort
below inserts earlier input elements last, an earlier element ends up
before later elements with an equal key, giving stability. -/
def insertByName (x : String × String) : List (String × String) →
    List (String × String)
  | [] => [x]
  | y :: rest => if strLe x.1 y.1 then x :: y :: rest else y :: insertByName x rest

/-- Python `sorted(syms, key=lambda sym: sym[_KEY_NAME])`: a stable sort
by name; modelled by stable insertion sort, which agrees with every
stable sort by the same key. -/
def sortByName : List (String × String) → List (String × String)
  | [] => []
  | x :: rest => insertByName x (sortByName rest)

/-- The resolution core of `process_file_recursive` (lines 162-195): run
the three-stage sweep, emit one entry per library with a nonempty claim
list (symbols sorted by name), then the unresolved bucket of imported
symbols never found — dropping weak-typed ones when `ignoreWeak` — when
it is nonempty. -/
def resolveSymbols (ignoreWeak : Bool) (imported deps : List (String × String))
    (exported : List (String × List (String × String))) : List ResultEntry :=
  let final := runStages imported exported [0, 1, 2]
    ([], deps.map (fun p => (p.1, ([] : List (String × String)))))
  let entries := deps.filterMap (fun p =>
    let syms := dictFindD final.2 p.1 []
    if syms.length > 0 then
      some ⟨some p.1, some p.2, sortByName syms⟩
    else none)
  let unresolved0 := (imported.filter (fun p => !(final.1.contains p.1)))
  let unresolved := if ignoreWeak then
      unresolved0.filter (fun s => !(isWeakSymbol s.2))
    else unresolved0
  if unresolved.length > 0 then entries ++ [⟨none, none, sortByName unresolved⟩]
  else entries

/-- The external collaborators (§6 of the spec), as total environment
functions: for a path, the dependency dictionary `_detect_dependencies`
would return, the imported and exported symbol dictionaries
`_detect_symbols` would return, whether the path is a readable regular
file, and whether `file` classifies it as an ELF image. -/
structure Env where
  deps : String → List (String × String)
  imps : String → List (String × String)
  exps : String → List (String × String)
  readable : String → Bool
  isExecutable : String → Bool

/-- The exported-symbol loop of `process_file_recursive` (lines 154-160):
for each dependency in order, fail when its resolved path is not a
readable file, otherwise fetch its exported symbols through the cache. -/
def buildExported (env : Env) :
    List (String × String) → Cache →
    Except String (List (String × List (String × String)) × Cache)
  | [], cache => .ok ([], cache)
  | (library, filename) :: rest, cache =>
    if env.readable filename then
      let r := lazyCompute cache "exp" filename env.exps
      match buildExported env rest r.2 with
      | .ok (es, cache') => .ok ((library, r.1) :: es, cache')
      | .error e => .error e
    else .error "Required library not found or access denied!"

/-- `process_file_recursive` (lines 145-195): merge the inherited preload
map with the freshly extracted dependency dictionary (preload first),
return `none` when the image imports nothing, otherwise gather each
dependency's exports and run the resolver. -/
def processFileRecursive (env : Env) (filename : String) (ignoreWeak : Bool)
    (cache : Cache) (preloaded : Option (List (String × String))) :
    Except String (Option (List ResultEntry) × Cache) :=
  let rdep := lazyCompute cache "dep" filename env.deps
  let dependencies := mergeDict preloaded (some rdep.1)
  let rimp := lazyCompute rdep.2 "imp" filename env.imps
  if rimp.1.length < 1 then .ok (none, rimp.2)
  else
    match buildExported env dependencies rimp.2 with
    | .error e => .error e
    | .ok (exported, cache') =>
      .ok (some (resolveSymbols ignoreWeak rimp.1 dependencies exported), cache')

/-- The preload map a parent passes to its children (line 220): soname to
path, over the result entries that carry a path key. -/
def entryPathPairs (entries : List ResultEntry) : List (String × String) :=
  entries.filterMap (fun e =>
    match e.soname, e.path with
    | some s, some p => some (s, p)
    | _, _ => none)

/-- The work-queue state of `process_file` (lines 208-223).  `processed`
is instrumentation only: it records the sequence of dequeued paths so
that traversal properties can be stated; the source keeps no such list. -/
structure LoopState where
  results : List (String × List ResultEntry)
  visited : List String
  pending : List (String × Option (List (String × String)))
  cache : Cache
  processed : List String
  err : Option String
deriving Repr

/-- One iteration of the `while True` loop of `process_file` (lines
211-223): dequeue a pair, run `process_file_recursive`, record a truthy
result, and in recursive mode enqueue every result path not yet visited
(the not-in-visited filter is evaluated before any of the batch is added,
as the Python list comprehension is), passing the merged preload map down
unless preloading is disabled. -/
def loopStep (env : Env) (recursive noPreload noFilter : Bool)
    (st : LoopState) : LoopState :=
  match st.pending with
  | [] => st
  | (filename, preloaded) :: restPending =>
    match processFileRecursive env filename (!noFilter) st.cache preloaded with
    | .error e =>
      { st with pending := restPending, processed := st.processed ++ [filename],
                err := some e }
    | .ok (result, cache') =>
      let st' := { st with pending := restPending, cache := cache',
                           processed := st.processed ++ [filename] }
      match result with
      | none => st'
      | some entries =>
        if entries.length = 0 then st'
        else
          let st'' := { st' with results := st'.results ++ [(filename, entries)] }
          if recursive then
            let preloaded' := if noPreload then none
              else some (mergeDict preloaded (some (entryPathPairs entries)))
            let newPaths := (entries.filterMap (fun e => e.path)).filter
              (fun p => !(st.visited.contains p))
            { st'' with visited := st''.visited ++ newPaths,
                        pending := restPending ++ newPaths.map (fun p => (p, preloaded')) }
          else st''

/-- The fuelled driver of the work queue: stop on an error, an empty
queue, or exhausted fuel (the source loop terminates because the visited
guard bounds the queue; fuel makes the model total). -/
def processLoop (env : Env) (recursive noPreload noFilter : Bool) :
    Nat → LoopState → LoopState
  | 0, st => st
  | fuel + 1, st =>
    if st.err.isSome then st
    else match st.pending with
    | [] => st
    | _ :: _ =>
      processLoop env recursive noPreload noFilter fuel
        (loopStep env recursive noPreload noFilter st)

/-- The singleton collapse of line 218: a one-entry result list is stored
as the bare entry. -/
inductive DepsOut : Type
  | single : ResultEntry → DepsOut
  | multiple : List ResultEntry → DepsOut
deriving DecidableEq, Repr

/-- `result[0] if len(result) == 1 else result`. -/
def collapseDeps (l : List ResultEntry) : DepsOut :=
  match l with
  | [e] => .single e
  | _ => .multiple l

/-- `process_file` (lines 197-232): check the input is a readable ELF
image, seed the queue with it, drain the queue, and shape each recorded
result (the `print_types` type-eradication of lines 226-230 is output
formatting over the same data and is not modelled). -/
def processFile (env : Env) (filename : String) (cache : Cache)
    (recursive _printTypes noPreload noFilter : Bool) (fuel : Nat) :
    Except String (List (String × DepsOut)) :=
  if !(env.readable filename) then
    .error "Input file not found or access denied!"
  else if !(env.isExecutable filename) then
    .error "Input file is not a supported executable file or shared library!"
  else
    let final := processLoop env recursive noPreload noFilter fuel
      ⟨[], [filename], [(filename, none)], cache, [], none⟩
    match final.err with
    | some e => .error e
    | none => .ok (final.results.map (fun r => (r.1, collapseDeps r.2)))

/-! ### Dictionary lemmas -/

theorem dictFind_append {α β : Type} [BEq α] (d1 d2 : List (α × β)) (k : α) :
    dictFind (d1 ++ d2) k = (dictFind d1 k).or (dictFind d2 k) := by
  unfold dictFind
  rw [List.find?_append]
  cases List.find? (fun p => p.1 == k) d1 <;> simp

theorem dictFind_concat_ne {α β : Type} [BEq α] (d : List (α × β)) (k2 k : α)
    (v : β) (h : (k2 == k) = false) :
    dictFind (d ++ [(k2, v)]) k = dictFind d k := by
  rw [dictFind_append]
  have h1 : dictFind [(k2, v)] k = none := by
    simp [dictFind, List.find?_cons, h]
  rw [h1]
  cases dictFind d k <;> rfl

theorem dictFind_eq_none_of_not_contains {β : Type} (d : List (String × β))
    (k : String) (h : dictContains d k = false) : dictFind d k = none := by
  unfold dictFind
  rw [List.find?_eq_none.mpr (List.any_eq_false.mp h)]

theorem dictFind_filter_key {β : Type} (d : List (String × β))
    (q : String × β → Bool) (k : String)
    (h : ∀ p : String × β, (p.1 == k) = true → q p = true) :
    dictFind (d.filter q) k = dictFind d k := by
  induction d with
  | nil => rfl
  | cons p rest ih =>
    by_cases hpk : (p.1 == k) = true
    · rw [List.filter_cons_of_pos (h p hpk)]
      simp [dictFind, List.find?, hpk]
    · by_cases hq : q p = true
      · rw [List.filter_cons_of_pos hq]
        simpa [dictFind, List.find?, Bool.eq_false_iff.mpr hpk] using ih
      · rw [List.filter_cons_of_neg (by simp [hq])]
        simpa [dictFind, List.find?, Bool.eq_false_iff.mpr hpk] using ih

theorem keys_dictInsert {β : Type} (d : List (String × β)) (k : String) (v : β)
    (h : (d.map Prod.fst).Nodup) : ((dictInsert d k v).map Prod.fst).Nodup := by
  unfold dictInsert
  split
  · have hkeys : (d.map (fun p => if p.1 == k then (p.1, v) else p)).map Prod.fst
        = d.map Prod.fst := by
      rw [List.map_map]
      apply List.map_congr_left
      intro p _
      show (if p.1 == k then (p.1, v) else p).1 = p.1
      split <;> rfl
    rw [hkeys]
    exact h
  · rename_i hc
    rw [List.map_append, List.nodup_append]
    refine ⟨h, by simp, ?_⟩
    intro a ha hk
    simp only [List.map_cons, List.map_nil, List.mem_singleton] at hk
    subst hk
    obtain ⟨p, hp, hpk⟩ := List.mem_map.mp ha
    apply hc
    exact List.any_eq_true.mpr ⟨p, hp, by simp [hpk]⟩

theorem lazyCompute_find_other (cache : Cache) (cat key : String)
    (fac : String → List (String × String)) (k : String × String)
    (h : (((cat, key) : String × String) == k) = false) :
    dictFind (lazyCompute cache cat key fac).2 k = dictFind cache k := by
  unfold lazyCompute
  cases hf : dictFind cache (cat, key) with
  | some v => rfl
  | none => exact dictFind_concat_ne _ _ _ _ h

theorem lazyCompute_miss (cache : Cache) (cat key : String)
    (fac : String → List (String × String))
    (h : dictFind cache (cat, key) = none) :
    lazyCompute cache cat key fac = (fac key, cache ++ [((cat, key), fac key)]) := by
  unfold lazyCompute
  rw [h]

theorem lazyCompute_hit (cache : Cache) (cat key : String)
    (fac : String → List (String × String)) (v : List (String × String))
    (h : dictFind cache (cat, key) = some v) :
    lazyCompute cache cat key fac = (v, cache) := by
  unfold lazyCompute
  rw [h]

/-- `process_file_recursive` with its `let` bindings expanded, for
rewriting. -/
theorem processFileRecursive_unfold (env : Env) (f : String) (iw : Bool)
    (cache : Cache) (pre : Option (List (String × String))) :
    processFileRecursive env f iw cache pre
      = (if (lazyCompute (lazyCompute cache "dep" f env.deps).2 "imp" f env.imps).1.length < 1
         then .ok (none, (lazyCompute (lazyCompute cache "dep" f env.deps).2 "imp" f env.imps).2)
         else
           match buildExported env
               (mergeDict pre (some (lazyCompute cache "dep" f env.deps).1))
               (lazyCompute (lazyCompute cache "dep" f env.deps).2 "imp" f env.imps).2 with
           | .error e => .error e
           | .ok (exported, cache') =>
             .ok (some (resolveSymbols iw
                 (lazyCompute (lazyCompute cache "dep" f env.deps).2 "imp" f env.imps).1
                 (mergeDict pre (some (lazyCompute cache "dep" f env.deps).1)) exported),
               cache')) := rfl

/-! ### C4: preload versus locally extracted dependencies -/

/-- Environment for the C4 counterexample: the image `app` locally
declares `libc.so ↦ /loc/libc`, while the inherited preload maps
`libc.so ↦ /pre/libc`, which exports the one imported symbol. -/
def c4Env : Env where
  deps := fun f => if f = "app" then [("libc.so", "/loc/libc")] else []
  imps := fun f => if f = "app" then [("f", "U")] else []
  exps := fun p => if p = "/pre/libc" then [("f", "T")] else []
  readable := fun _ => true
  isExecutable := fun _ => true

/-- C4, counterexample: with preload `libc.so ↦ /pre/libc` and local
extraction `libc.so ↦ /loc/libc`, the resolved entry carries the preload
path, not the locally extracted one — the claim has the priority
backwards. -/
theorem c4_preload_counterexample :
    processFileRecursive c4Env "app" true [] (some [("libc.so", "/pre/libc")])
      = .ok (some [⟨some "libc.so", some "/pre/libc", [("f", "T")]⟩],
             [(("dep", "app"), [("libc.so", "/loc/libc")]),
              (("imp", "app"), [("f", "U")]),
              (("exp", "/pre/libc"), [("f", "T")])])
    ∧ ("/pre/libc" : String) ≠ "/loc/libc" := ⟨rfl, by decide⟩

/-- C4 (amended): when the inherited preload map and the fresh extraction
share a soname, the merged dependency set keeps the preload binding —
preload entries are applied first and the fresh extraction is added only
for sonames not already present, so the local declaration never overrides
the preload. -/
theorem mergeDict_preload_priority (pre fresh : List (String × String)) (k : String) :
    (∀ v : String, dictFind pre k = some v →
      dictFind (mergeDict (some pre) (some fresh)) k = some v) ∧
    (dictContains pre k = false →
      dictFind (mergeDict (some pre) (some fresh)) k = dictFind fresh k) := by
  constructor
  · intro v hv
    show dictFind (pre ++ fresh.filter (fun p => !(dictContains pre p.1))) k = some v
    rw [dictFind_append, hv]
    rfl
  · intro hc
    show dictFind (pre ++ fresh.filter (fun p => !(dictContains pre p.1))) k
      = dictFind fresh k
    rw [dictFind_append, dictFind_eq_none_of_not_contains pre k hc]
    rw [Option.none_or]
    refine dictFind_filter_key fresh _ k ?_
    intro p hp
    have hpk : p.1 = k := eq_of_beq hp
    rw [hpk, hc]
    rfl

/-- C4, witness for `mergeDict_preload_priority`. -/
theorem mergeDict_preload_priority_witness :
    dictFind (mergeDict (some [("libc.so", "/pre/libc")])
      (some [("libc.so", "/loc/libc")])) "libc.so" = some "/pre/libc" ∧
    dictFind (mergeDict (some [("libm.so", "/pre/libm")])
      (some [("libc.so", "/loc/libc")])) "libc.so" = some "/loc/libc" :=
  ⟨(mergeDict_preload_priority [("libc.so", "/pre/libc")]
      [("libc.so", "/loc/libc")] "libc.so").1 "/pre/libc" rfl,
   by rw [(mergeDict_preload_priority [("libm.so", "/pre/libm")]
      [("libc.so", "/loc/libc")] "libc.so").2 rfl]; rfl⟩

/-! ### C5: dependency-list deduplication -/

theorem keys_lddLineStep (resolve : String → String) (acc : List (String × String))
    (line : LddLine) (h : (acc.map Prod.fst).Nodup) :
    ((lddLineStep resolve acc line).map Prod.fst).Nodup := by
  cases line with
  | noMatch => exact h
  | matched library path =>
    cases path with
    | some p =>
      simp only [lddLineStep]
      split
      · split
        · exact keys_dictInsert _ _ _ h
        · exact h
      · split
        · exact keys_dictInsert _ _ _ h
        · exact h
    | none =>
      simp only [lddLineStep]
      split
      · exact keys_dictInsert _ _ _ h
      · exact h

theorem keys_lddFold_nodup (resolve : String → String) (lines : List LddLine) :
    ∀ acc : List (String × String), (acc.map Prod.fst).Nodup →
      ((lines.foldl (lddLineStep resolve) acc).map Prod.fst).Nodup := by
  induction lines with
  | nil => exact fun acc h => h
  | cons line rest ih =>
    intro acc h
    rw [List.foldl_cons]
    exact ih _ (keys_lddLineStep resolve acc line h)

/-- C5, counterexample: with the same soname listed twice, the recorded
path is the one of the second occurrence, not the first. -/
theorem c5_lastwins_counterexample :
    detectDependencies (fun s => s)
      [.matched "libx.so" (some "/first"), .matched "libx.so" (some "/second")] 0
      = .ok [("libx.so", "/second")]
    ∧ ("/second" : String) ≠ "/first" := ⟨rfl, by decide⟩

/-- C5 (amended): the dependency dictionary is deduplicated by soname and
`"not found"` entries are skipped, but on a repeated soname the recorded
path comes from the last occurrence (the position still comes from the
first). -/
theorem detectDependencies_dedup :
    (∀ (resolve : String → String) (lines : List LddLine) (ec : Int)
       (deps : List (String × String)),
       detectDependencies resolve lines ec = .ok deps →
       (deps.map Prod.fst).Nodup) ∧
    (∀ (resolve : String → String) (l1 l2 : List LddLine) (lib : String) (ec : Int),
       detectDependencies resolve (l1 ++ [.matched lib (some "not found")] ++ l2) ec
         = detectDependencies resolve (l1 ++ l2) ec) ∧
    (∀ (resolve : String → String) (lib p1 p2 : String),
       (p1 != "") = true → (p1 != "not found") = true →
       (p2 != "") = true → (p2 != "not found") = true →
       detectDependencies resolve [.matched lib (some p1), .matched lib (some p2)] 0
         = .ok [(lib, resolve p2)]) := by
  refine ⟨?_, ?_, ?_⟩
  · intro resolve lines ec deps h
    unfold detectDependencies at h
    split at h
    · exact absurd h (by simp)
    · have hd : lines.foldl (lddLineStep resolve) [] = deps := by
        injection h
      rw [← hd]
      exact keys_lddFold_nodup resolve lines [] (by simp)
  · intro resolve l1 l2 lib ec
    have hx : ∀ d : List (String × String),
        lddLineStep resolve d (.matched lib (some "not found")) = d := fun d => rfl
    unfold detectDependencies
    rw [List.foldl_append, List.foldl_append, List.foldl_cons, hx, List.foldl_nil,
        ← List.foldl_append]
  · intro resolve lib p1 p2 h1 h2 h3 h4
    unfold detectDependencies lddLineStep
    simp only [List.foldl_cons, List.foldl_nil, h1, h2, h3, h4, if_true]
    simp [dictInsert, dictContains, beq_self_eq_true]

/-- C5, witness for `detectDependencies_dedup`. -/
theorem detectDependencies_dedup_witness :
    detectDependencies (fun s => s)
      [.matched "liba.so" (some "/a"), .matched "liba.so" (some "/b")] 0
      = .ok [("liba.so", "/b")] :=
  detectDependencies_dedup.2.2 (fun s => s) "liba.so" "/a" "/b"
    (by decide) (by decide) (by decide) (by decide)

/-! ### C6 and C7: the version-alias split -/

/-- Shared helper: on a single matched line whose name contains
`BASE@@VERSION` and which passes the requested defined/undefined filter,
`_detect_symbols` produces exactly the two records of the alias split. -/
theorem detectSymbols_versioned_single (getDefined : Bool)
    (address : Option String) (t : Char) (name base ver : String)
    (hsearch : searchVersioned name.data = some (base, ver))
    (hfilter : (if getDefined then isDefinedLine address t
                else !(isDefinedLine address t)) = true) :
    detectSymbols [.matched address t name] 0 getDefined
      = .ok [(base ++ "@" ++ ver, String.mk [t]), (base, "~" ++ String.mk [t])] := by
  have hat : ("@" : String).length = 1 := rfl
  have hne : ((base ++ "@" ++ ver) == base) = false := by
    refine beq_eq_false_iff_ne.mpr ?_
    intro h
    have hlen := congrArg String.length h
    rw [String.length_append, String.length_append, hat] at hlen
    omega
  unfold detectSymbols nmLineStep
  simp only [List.foldl_cons, List.foldl_nil, hfilter, if_true, hsearch]
  simp [dictInsert, dictContains, hne]

/-- C6 (amended): the `BASE@@VERSION` alias split is applied to whichever
symbols pass the requested filter, in the imported (undefined) mode just
as in the exported (defined) mode — it is not restricted to defined
mode. -/
theorem detectSymbols_split_in_both_modes (getDefined : Bool)
    (address : Option String) (t : Char) (name base ver : String)
    (hsearch : searchVersioned name.data = some (base, ver))
    (hfilter : (if getDefined then isDefinedLine address t
                else !(isDefinedLine address t)) = true) :
    detectSymbols [.matched address t name] 0 getDefined
      = .ok [(base ++ "@" ++ ver, String.mk [t]), (base, "~" ++ String.mk [t])] :=
  detectSymbols_versioned_single getDefined address t name base ver hsearch hfilter

/-- C6, witness: the split fires in undefined (imported) mode. -/
theorem detectSymbols_split_in_both_modes_witness :
    detectSymbols [.matched none 'U' "foo@@V1"] 0 false
      = .ok [("foo" ++ "@" ++ "V1", String.mk ['U']), ("foo", "~" ++ String.mk ['U'])] :=
  detectSymbols_split_in_both_modes false none 'U' "foo@@V1" "foo" "V1" rfl rfl

/-- C6, counterexample: an undefined symbol named `foo@@V1` does produce
the two-record split, contradicting the claim that the aliasing rule
applies only in defined mode. -/
theorem c6_undefined_split_counterexample :
    detectSymbols [.matched none 'U' "foo@@V1"] 0 false
      = .ok [("foo@V1", "U"), ("foo", "~U")]
    ∧ dictContains [("foo@V1", "U"), ("foo", "~U")] "foo" = true := ⟨rfl, rfl⟩

/-- C7, counterexample: the synthetic alias of the strong versioned
export `foo@@V1` has type string `~T`, whose last character is `T`, so it
does not satisfy the weak-detection rule. -/
theorem c7_alias_not_weak_counterexample :
    detectSymbols [.matched (some "0000000000001040 ") 'T' "foo@@V1"] 0 true
      = .ok [("foo@V1", "T"), ("foo", "~T")]
    ∧ isWeakSymbol "~T" = false := ⟨rfl, by decide⟩

/-- C7 (amended): the synthetic alias record is tagged by prefixing `~`
to the raw type code, not by forcing a weak code: it satisfies the
weak-detection rule exactly when the underlying code does, and its
last-resort behaviour comes from the `~` alias marker, which makes it
ineligible at resolution stages 0 and 1 and eligible at stage 2. -/
theorem alias_marker_semantics (t : Char) (address : Option String)
    (name base ver : String)
    (hsearch : searchVersioned name.data = some (base, ver))
    (haddr : isDefinedLine address t = true) :
    detectSymbols [.matched address t name] 0 true
      = .ok [(base ++ "@" ++ ver, String.mk [t]), (base, "~" ++ String.mk [t])]
    ∧ isWeakSymbol ("~" ++ String.mk [t]) = isWeakSymbol (String.mk [t])
    ∧ eligibleAtStage 0 ("~" ++ String.mk [t]) = false
    ∧ eligibleAtStage 1 ("~" ++ String.mk [t]) = false
    ∧ eligibleAtStage 2 ("~" ++ String.mk [t]) = true := by
  refine ⟨detectSymbols_versioned_single true address t name base ver hsearch
    (by simpa using haddr), ?_, ?_, ?_, ?_⟩
  · show isWeakSymbol (String.mk ['~', t]) = isWeakSymbol (String.mk [t])
    simp [isWeakSymbol, List.getLast?_cons_cons]
  · show eligibleAtStage 0 (String.mk ['~', t]) = false
    simp [eligibleAtStage, startsWithTilde]
  · show eligibleAtStage 1 (String.mk ['~', t]) = false
    simp [eligibleAtStage, startsWithTilde]
  · show eligibleAtStage 2 (String.mk ['~', t]) = true
    simp [eligibleAtStage]

/-- C7, witness for `alias_marker_semantics`. -/
theorem alias_marker_semantics_witness :
    (detectSymbols [.matched (some "0000000000002080 ") 'T' "bar@@V2"] 0 true
      = .ok [("bar" ++ "@" ++ "V2", String.mk ['T']), ("bar", "~" ++ String.mk ['T'])])
    ∧ isWeakSymbol ("~" ++ String.mk ['T']) = isWeakSymbol (String.mk ['T'])
    ∧ eligibleAtStage 0 ("~" ++ String.mk ['T']) = false
    ∧ eligibleAtStage 1 ("~" ++ String.mk ['T']) = false
    ∧ eligibleAtStage 2 ("~" ++ String.mk ['T']) = true :=
  alias_marker_semantics 'T' (some "0000000000002080 ") "bar@@V2" "bar" "V2" rfl rfl

/-! ### C9: behaviour on an empty dependency list -/

/-- Environment for C9: the image `app` has no dependencies at all but
imports one symbol. -/
def c9Env : Env where
  deps := fun _ => []
  imps := fun f => if f = "app" then [("foo", "U")] else []
  exps := fun _ => []
  readable := fun _ => true
  isExecutable := fun _ => true

/-- C9, counterexample: when the dependency lister succeeds with an empty
listing, processing does not fail — it continues with the empty
dependency set and reports every imported symbol as unresolved.  No typed
"no dependencies" failure exists in the code. -/
theorem c9_empty_deps_counterexample :
    detectDependencies (fun s => s) [] 0 = .ok []
    ∧ processFileRecursive c9Env "app" true [] none
        = .ok (some [⟨none, none, [("foo", "U")]⟩],
               [(("dep", "app"), []), (("imp", "app"), [("foo", "U")])]) :=
  ⟨rfl, rfl⟩

/-- C9 (amended): dependency extraction fails only when the lister tool
exits nonzero; an empty listing with exit status 0 is returned as an
empty dictionary, and an image with an empty dependency set and a
nonempty import set is processed normally, producing only the unresolved
bucket (weak-filtered as configured). -/
theorem empty_deps_continue :
    (∀ (resolve : String → String) (lines : List LddLine) (ec : Int), ec ≠ 0 →
       detectDependencies resolve lines ec
         = .error "Failed to detect dependencies!") ∧
    (∀ (env : Env) (f : String) (iw : Bool) (imp0 : String × String)
       (rest : List (String × String)),
       env.deps f = [] → env.imps f = imp0 :: rest →
       processFileRecursive env f iw [] none
         = .ok (some (resolveSymbols iw (imp0 :: rest) [] []),
                [(("dep", f), []), (("imp", f), imp0 :: rest)])) ∧
    (∀ (iw : Bool) (imp0 : String × String) (rest : List (String × String)),
       resolveSymbols iw (imp0 :: rest) [] []
         = (if ((if iw then (imp0 :: rest).filter (fun s => !(isWeakSymbol s.2))
                 else imp0 :: rest)).length > 0
            then [⟨none, none, sortByName
                   (if iw then (imp0 :: rest).filter (fun s => !(isWeakSymbol s.2))
                    else imp0 :: rest)⟩]
            else [])) := by
  refine ⟨?_, ?_, ?_⟩
  · intro resolve lines ec hec
    unfold detectDependencies
    rw [if_pos (by simpa using hec)]
  · intro env f iw imp0 rest hdep himp
    have hne : ((("dep", f) : String × String) == ("imp", f)) = false := rfl
    unfold processFileRecursive
    simp only [lazyCompute, dictFind, List.find?_nil, hdep]
    have hfind : List.find? (fun p => p.1 == ("imp", f))
        ([] ++ [((("dep", f) : String × String), ([] : List (String × String)))])
        = none := by
      simp [List.find?, hne]
    simp only [hfind, himp]
    rfl
  · intro iw imp0 rest
    have hrun : runStages (imp0 :: rest) [] [0, 1, 2]
        ([], List.map (fun p : String × String => (p.1, ([] : List (String × String)))) [])
        = ([], []) := rfl
    have hfil : (imp0 :: rest).filter (fun p => !(List.contains ([] : List String) p.1))
        = imp0 :: rest := List.filter_eq_self.mpr (fun a _ => rfl)
    simp only [resolveSymbols, hrun, List.filterMap_nil, List.nil_append, hfil]

/-- C9, witness for `empty_deps_continue`. -/
theorem empty_deps_continue_witness :
    detectDependencies (fun s => s) [] 1 = .error "Failed to detect dependencies!"
    ∧ processFileRecursive c9Env "app" true [] none
        = .ok (some (resolveSymbols true [("foo", "U")] [] []),
               [(("dep", "app"), []), (("imp", "app"), [("foo", "U")])])
    ∧ resolveSymbols true [("foo", "U")] [] []
        = [⟨none, none, [("foo", "U")]⟩] :=
  ⟨empty_deps_continue.1 (fun s => s) [] 1 (by decide),
   empty_deps_continue.2.1 c9Env "app" true ("foo", "U") [] rfl rfl,
   by rw [empty_deps_continue.2.2 true ("foo", "U") []]; rfl⟩

/-! ### C10: empty import set short-circuits before dependency checks -/

/-- C10 (confirmed): when the image's imported-symbol dictionary is empty
(and not overridden by a stale cache entry), `process_file_recursive`
returns `None` with no dependency-readability failure — for every
readability oracle whatsoever — and adds no exported-symbol cache entry,
so no exported-symbol extraction is performed. -/
theorem no_imports_short_circuit (env : Env) (f : String) (iw : Bool)
    (cache : Cache) (pre : Option (List (String × String)))
    (hc : dictFind cache ("imp", f) = none) (hi : env.imps f = []) :
    (∀ r : String → Bool,
       processFileRecursive ⟨env.deps, env.imps, env.exps, r, env.isExecutable⟩
         f iw cache pre
         = .ok (none, (lazyCompute (lazyCompute cache "dep" f env.deps).2
             "imp" f env.imps).2)) ∧
    (∀ p : String,
       dictFind ((lazyCompute (lazyCompute cache "dep" f env.deps).2
           "imp" f env.imps).2) ("exp", p)
         = dictFind cache ("exp", p)) := by
  have hdi : ((("dep", f) : String × String) == ("imp", f)) = false := rfl
  have hfind2 : dictFind (lazyCompute cache "dep" f env.deps).2 ("imp", f) = none := by
    rw [lazyCompute_find_other cache "dep" f env.deps ("imp", f) hdi]
    exact hc
  have himpval : (lazyCompute (lazyCompute cache "dep" f env.deps).2
      "imp" f env.imps).1 = [] := by
    rw [lazyCompute_miss _ _ _ _ hfind2, hi]
  constructor
  · intro r
    rw [processFileRecursive_unfold]
    rw [himpval]
    rfl
  · intro p
    have hde : ((("dep", f) : String × String) == ("exp", p)) = false := rfl
    have hie : ((("imp", f) : String × String) == ("exp", p)) = false := rfl
    rw [lazyCompute_find_other _ "imp" f env.imps ("exp", p) hie,
        lazyCompute_find_other _ "dep" f env.deps ("exp", p) hde]

/-- Environment for the C10 witness: one declared dependency whose path
is never readable, and no imported symbols. -/
def c10Env : Env where
  deps := fun _ => [("libc.so", "/missing/libc")]
  imps := fun _ => []
  exps := fun _ => []
  readable := fun _ => false
  isExecutable := fun _ => true

/-- C10, witness: even with the declared dependency unreadable, an image
without imports yields `None` and caches no exported symbols. -/
theorem no_imports_short_circuit_witness :
    processFileRecursive c10Env "app" true [] none
      = .ok (none, [(("dep", "app"), [("libc.so", "/missing/libc")]),
                    (("imp", "app"), [])])
    ∧ dictFind ([(("dep", "app"), [("libc.so", "/missing/libc")]),
                 (("imp", "app"), ([] : List (String × String)))] : Cache)
        ("exp", "/missing/libc") = none :=
  ⟨(no_imports_short_circuit c10Env "app" true [] none rfl rfl).1 c10Env.readable,
   (no_imports_short_circuit c10Env "app" true [] none rfl rfl).2 "/missing/libc"⟩

/-! ### C2 and C3: resolution priority -/

theorem insertByName_perm (a : String × String) (l : List (String × String)) :
    (insertByName a l).Perm (a :: l) := by
  induction l with
  | nil => exact List.Perm.refl _
  | cons b rest ih =>
    show (if strLe a.1 b.1 then a :: b :: rest else b :: insertByName a rest).Perm (a :: b :: rest)
    split
    · exact List.Perm.refl _
    · exact (List.Perm.cons b ih).trans (List.Perm.swap a b rest)

theorem sortByName_perm (l : List (String × String)) : (sortByName l).Perm l := by
  induction l with
  | nil => exact List.Perm.refl _
  | cons a rest ih =>
    exact (insertByName_perm a (sortByName rest)).trans (List.Perm.cons a ih)

theorem mem_sortByName (p : String × String) (l : List (String × String)) :
    p ∈ sortByName l ↔ p ∈ l := (sortByName_perm l).mem_iff

theorem all_contains_nil_false (imported : List (String × String)) (b : String)
    (h : dictContains imported b = true) :
    (imported.all fun p => List.contains ([] : List String) p.1) = false := by
  obtain ⟨p, hp, _⟩ := List.any_eq_true.mp h
  cases hall : imported.all fun p => List.contains ([] : List String) p.1
  · rfl
  · exact absurd (List.all_eq_true.mp hall p hp) (by simp [List.contains])


/-- Result assembly for a two-library run in which the second library
claimed exactly `[(b, l)]` and the first claimed nothing. -/
theorem resolveSymbols_assembly_pair (iw : Bool) (imported : List (String × String))
    (ex : List (String × List (String × String))) (sA pA sB pB b l : String)
    (hs : (sA == sB) = false)
    (hfinal : runStages imported ex [0, 1, 2] ([], [(sA, []), (sB, [])])
      = ([b], [(sA, []), (sB, [(b, l)])])) :
    ∃ rest : List ResultEntry,
      resolveSymbols iw imported [(sA, pA), (sB, pB)] ex
        = ⟨some sB, some pB, [(b, l)]⟩ :: rest
      ∧ ∀ e ∈ rest, e.soname = none ∧ b ∉ e.symbols.map Prod.fst := by
  have hlook1 : dictFindD [(sA, ([] : List (String × String))), (sB, [(b, l)])] sA []
      = [] := by
    simp [dictFindD, dictFind, List.find?]
  have hlook2 : dictFindD [(sA, ([] : List (String × String))), (sB, [(b, l)])] sB []
      = [(b, l)] := by
    simp [dictFindD, dictFind, List.find?, hs]
  refine ⟨(if ((if iw then
      (imported.filter (fun p => !(List.contains [b] p.1))).filter
        (fun s => !(isWeakSymbol s.2))
      else imported.filter (fun p => !(List.contains [b] p.1)))).length > 0
    then [⟨none, none, sortByName
      (if iw then (imported.filter (fun p => !(List.contains [b] p.1))).filter
        (fun s => !(isWeakSymbol s.2))
       else imported.filter (fun p => !(List.contains [b] p.1)))⟩]
    else []), ?_, ?_⟩
  · have h0 : ¬(([] : List (String × String)).length > 0) := by decide
    have h1 : ([(b, l)] : List (String × String)).length > 0 := by simp
    simp only [resolveSymbols, List.map_cons, List.map_nil, hfinal, hlook1, hlook2,
      List.filterMap_cons, List.filterMap_nil, if_neg h0, if_pos h1]
    cases iw
    all_goals simp [sortByName, insertByName]
    all_goals split <;> rfl
  · intro e he
    by_cases hc : ((if iw then
        (imported.filter (fun p => !(List.contains [b] p.1))).filter
          (fun s => !(isWeakSymbol s.2))
        else imported.filter (fun p => !(List.contains [b] p.1)))).length > 0
    · rw [if_pos hc] at he
      have he' := List.mem_singleton.mp he
      subst he'
      refine ⟨rfl, ?_⟩
      intro hxe
      obtain ⟨q, hq, hqx⟩ := List.mem_map.mp hxe
      have hq' := (mem_sortByName q _).mp hq
      have hq0 : q ∈ imported.filter (fun p => !(List.contains [b] p.1)) := by
        cases iw with
        | true =>
          rw [if_pos rfl] at hq'
          exact (List.mem_filter.mp hq').1
        | false =>
          rw [if_neg (by simp)] at hq'
          exact hq'
      have hpred := (List.mem_filter.mp hq0).2
      rw [hqx] at hpred
      simp at hpred
    · rw [if_neg hc] at he
      exact absurd he (List.not_mem_nil e)

/-- Result assembly for a two-library run in which the first library
claimed exactly `[(b, l)]` and the second claimed nothing. -/
theorem resolveSymbols_assembly_pair_first (iw : Bool) (imported : List (String × String))
    (ex : List (String × List (String × String))) (sA pA sB pB b l : String)
    (hs : (sA == sB) = false)
    (hfinal : runStages imported ex [0, 1, 2] ([], [(sA, []), (sB, [])])
      = ([b], [(sA, [(b, l)]), (sB, [])])) :
    ∃ rest : List ResultEntry,
      resolveSymbols iw imported [(sA, pA), (sB, pB)] ex
        = ⟨some sA, some pA, [(b, l)]⟩ :: rest
      ∧ ∀ e ∈ rest, e.soname = none ∧ b ∉ e.symbols.map Prod.fst := by
  have hlook1 : dictFindD [(sA, [(b, l)]), (sB, ([] : List (String × String)))] sA []
      = [(b, l)] := by
    simp [dictFindD, dictFind, List.find?]
  have hlook2 : dictFindD [(sA, [(b, l)]), (sB, ([] : List (String × String)))] sB []
      = [] := by
    simp [dictFindD, dictFind, List.find?, hs]
  refine ⟨(if ((if iw then
      (imported.filter (fun p => !(List.contains [b] p.1))).filter
        (fun s => !(isWeakSymbol s.2))
      else imported.filter (fun p => !(List.contains [b] p.1)))).length > 0
    then [⟨none, none, sortByName
      (if iw then (imported.filter (fun p => !(List.contains [b] p.1))).filter
        (fun s => !(isWeakSymbol s.2))
       else imported.filter (fun p => !(List.contains [b] p.1)))⟩]
    else []), ?_, ?_⟩
  · have h0 : ¬(([] : List (String × String)).length > 0) := by decide
    have h1 : ([(b, l)] : List (String × String)).length > 0 := by simp
    simp only [resolveSymbols, List.map_cons, List.map_nil, hfinal, hlook1, hlook2,
      List.filterMap_cons, List.filterMap_nil, if_neg h0, if_pos h1]
    cases iw
    all_goals simp [sortByName, insertByName]
    all_goals split <;> rfl
  · intro e he
    by_cases hc : ((if iw then
        (imported.filter (fun p => !(List.contains [b] p.1))).filter
          (fun s => !(isWeakSymbol s.2))
        else imported.filter (fun p => !(List.contains [b] p.1)))).length > 0
    · rw [if_pos hc] at he
      have he' := List.mem_singleton.mp he
      subst he'
      refine ⟨rfl, ?_⟩
      intro hxe
      obtain ⟨q, hq, hqx⟩ := List.mem_map.mp hxe
      have hq' := (mem_sortByName q _).mp hq
      have hq0 : q ∈ imported.filter (fun p => !(List.contains [b] p.1)) := by
        cases iw with
        | true =>
          rw [if_pos rfl] at hq'
          exact (List.mem_filter.mp hq').1
        | false =>
          rw [if_neg (by simp)] at hq'
          exact hq'
      have hpred := (List.mem_filter.mp hq0).2
      rw [hqx] at hpred
      simp at hpred
    · rw [if_neg hc] at he
      exact absurd he (List.not_mem_nil e)

/-- Result assembly for a single-library run that claimed exactly
`[(b, l)]`. -/
theorem resolveSymbols_assembly_single (iw : Bool) (imported : List (String × String))
    (ex : List (String × List (String × String))) (sA pA b l : String)
    (hfinal : runStages imported ex [0, 1, 2] ([], [(sA, [])])
      = ([b], [(sA, [(b, l)])])) :
    ∃ rest : List ResultEntry,
      resolveSymbols iw imported [(sA, pA)] ex
        = ⟨some sA, some pA, [(b, l)]⟩ :: rest
      ∧ ∀ e ∈ rest, e.soname = none ∧ b ∉ e.symbols.map Prod.fst := by
  have hlook1 : dictFindD [(sA, [(b, l)])] sA [] = [(b, l)] := by
    simp [dictFindD, dictFind, List.find?]
  refine ⟨(if ((if iw then
      (imported.filter (fun p => !(List.contains [b] p.1))).filter
        (fun s => !(isWeakSymbol s.2))
      else imported.filter (fun p => !(List.contains [b] p.1)))).length > 0
    then [⟨none, none, sortByName
      (if iw then (imported.filter (fun p => !(List.contains [b] p.1))).filter
        (fun s => !(isWeakSymbol s.2))
       else imported.filter (fun p => !(List.contains [b] p.1)))⟩]
    else []), ?_, ?_⟩
  · have h1 : ([(b, l)] : List (String × String)).length > 0 := by simp
    simp only [resolveSymbols, List.map_cons, List.map_nil, hfinal, hlook1,
      List.filterMap_cons, List.filterMap_nil, if_pos h1]
    cases iw
    all_goals simp [sortByName, insertByName]
    all_goals split <;> rfl
  · intro e he
    by_cases hc : ((if iw then
        (imported.filter (fun p => !(List.contains [b] p.1))).filter
          (fun s => !(isWeakSymbol s.2))
        else imported.filter (fun p => !(List.contains [b] p.1)))).length > 0
    · rw [if_pos hc] at he
      have he' := List.mem_singleton.mp he
      subst he'
      refine ⟨rfl, ?_⟩
      intro hxe
      obtain ⟨q, hq, hqx⟩ := List.mem_map.mp hxe
      have hq' := (mem_sortByName q _).mp hq
      have hq0 : q ∈ imported.filter (fun p => !(List.contains [b] p.1)) := by
        cases iw with
        | true =>
          rw [if_pos rfl] at hq'
          exact (List.mem_filter.mp hq').1
        | false =>
          rw [if_neg (by simp)] at hq'
          exact hq'
      have hpred := (List.mem_filter.mp hq0).2
      rw [hqx] at hpred
      simp at hpred
    · rw [if_neg hc] at he
      exact absurd he (List.not_mem_nil e)

/-- C2 (confirmed): in the two-library scenario — L1 earlier exporting x
only weakly (as a real symbol), L2 later exporting x strongly — the
resolver assigns x to L2: strength beats declaration order. -/
theorem resolver_strong_beats_order (iw : Bool) (imported : List (String × String))
    (x s1 s2 p1 p2 t1 t2 : String)
    (hx : dictContains imported x = true)
    (hs : (s1 == s2) = false)
    (hw1 : isWeakSymbol t1 = true) (ha1 : startsWithTilde t1 = false)
    (hw2 : isWeakSymbol t2 = false) (ha2 : startsWithTilde t2 = false) :
    ∃ rest : List ResultEntry,
      resolveSymbols iw imported [(s1, p1), (s2, p2)]
          [(s1, [(x, t1)]), (s2, [(x, t2)])]
        = ⟨some s2, some p2, [(x, strLast t2)]⟩ :: rest
      ∧ ∀ e ∈ rest, e.soname = none ∧ x ∉ e.symbols.map Prod.fst := by
  have hfind1 : dictFindD [(s1, [(x, t1)]), (s2, [(x, t2)])] s1 [] = [(x, t1)] := by
    simp [dictFindD, dictFind, List.find?]
  have hfind2 : dictFindD [(s1, [(x, t1)]), (s2, [(x, t2)])] s2 [] = [(x, t2)] := by
    simp [dictFindD, dictFind, List.find?, hs]
  have hpl1 : processLibrary 0 imported [(x, t1)] [] [] = ([], []) := by
    simp [processLibrary, hx, eligibleAtStage, ha1, hw1]
  have hpl2 : processLibrary 0 imported [(x, t2)] [] [] = ([x], [(x, strLast t2)]) := by
    simp [processLibrary, hx, eligibleAtStage, ha2, hw2]
  have hplskip : ∀ (stage : Nat) (t : String) (acc : List (String × String)),
      processLibrary stage imported [(x, t)] [x] acc = ([x], acc) := by
    intro stage t acc
    simp [processLibrary]
  have hst0 : runStage 0 imported [(s1, [(x, t1)]), (s2, [(x, t2)])] []
      [(s1, []), (s2, [])] = ([x], [(s1, []), (s2, [(x, strLast t2)])]) := by
    simp [runStage, hfind1, hfind2, hpl1, hpl2]
  have hstskip : ∀ stage : Nat,
      runStage stage imported [(s1, [(x, t1)]), (s2, [(x, t2)])] [x]
        [(s1, []), (s2, [(x, strLast t2)])]
      = ([x], [(s1, []), (s2, [(x, strLast t2)])]) := by
    intro stage
    simp [runStage, hfind1, hfind2, hplskip]
  have hfinal : runStages imported [(s1, [(x, t1)]), (s2, [(x, t2)])] [0, 1, 2]
      ([], [(s1, []), (s2, [])]) = ([x], [(s1, []), (s2, [(x, strLast t2)])]) := by
    by_cases hall : (imported.all fun p => List.contains [x] p.1) = true
    · simp [runStages, hst0, hstskip, hall]
    · simp [runStages, hst0, hstskip, hall]
  exact resolveSymbols_assembly_pair iw imported _ s1 p1 s2 p2 x (strLast t2) hs hfinal

/-- C2, witness for `resolver_strong_beats_order`. -/
theorem resolver_strong_beats_order_witness :
    ∃ rest : List ResultEntry,
      resolveSymbols true [("x", "U")] [("L1", "/1"), ("L2", "/2")]
          [("L1", [("x", "W")]), ("L2", [("x", "T")])]
        = ⟨some "L2", some "/2", [("x", strLast "T")]⟩ :: rest
      ∧ ∀ e ∈ rest, e.soname = none ∧ "x" ∉ e.symbols.map Prod.fst :=
  resolver_strong_beats_order true [("x", "U")] "x" "L1" "L2" "/1" "/2" "W" "T"
    (by decide) (by decide) (by decide) (by decide) (by decide) (by decide)

/-- C3 (confirmed): the synthetic alias is a last resort. -/
theorem resolver_alias_last_resort (iw : Bool) (imported : List (String × String))
    (b fv sD pD sL pL tv ta tr : String)
    (hb : dictContains imported b = true)
    (hfv : dictContains imported fv = false)
    (hta : startsWithTilde ta = true)
    (htr : startsWithTilde tr = false) :
    ((sD == sL) = false →
      ∃ rest : List ResultEntry,
        resolveSymbols iw imported [(sD, pD), (sL, pL)]
            [(sD, [(fv, tv), (b, ta)]), (sL, [(b, tr)])]
          = ⟨some sL, some pL, [(b, strLast tr)]⟩ :: rest
        ∧ ∀ e ∈ rest, e.soname = none ∧ b ∉ e.symbols.map Prod.fst) ∧
    ((sL == sD) = false →
      ∃ rest : List ResultEntry,
        resolveSymbols iw imported [(sL, pL), (sD, pD)]
            [(sL, [(b, tr)]), (sD, [(fv, tv), (b, ta)])]
          = ⟨some sL, some pL, [(b, strLast tr)]⟩ :: rest
        ∧ ∀ e ∈ rest, e.soname = none ∧ b ∉ e.symbols.map Prod.fst) ∧
    (∃ rest : List ResultEntry,
        resolveSymbols iw imported [(sD, pD)] [(sD, [(fv, tv), (b, ta)])]
          = ⟨some sD, some pD, [(b, strLast ta)]⟩ :: rest
        ∧ ∀ e ∈ rest, e.soname = none ∧ b ∉ e.symbols.map Prod.fst) := by
  have hallnil := all_contains_nil_false imported b hb
  have hex : ∃ a : String, ∃ c : String, (a, c) ∈ imported := by
    obtain ⟨p0, hp0, _⟩ := List.any_eq_true.mp hb
    exact ⟨p0.1, p0.2, hp0⟩
  have hD0 : processLibrary 0 imported [(fv, tv), (b, ta)] [] [] = ([], []) := by
    simp [processLibrary, hfv, hb, eligibleAtStage, hta]
  have hD1 : processLibrary 1 imported [(fv, tv), (b, ta)] [] [] = ([], []) := by
    simp [processLibrary, hfv, hb, eligibleAtStage, hta]
  have hD2 : processLibrary 2 imported [(fv, tv), (b, ta)] [] []
      = ([b], [(b, strLast ta)]) := by
    simp [processLibrary, hfv, hb, eligibleAtStage]
  have hDskip : ∀ (s : Nat) (acc : List (String × String)),
      processLibrary s imported [(fv, tv), (b, ta)] [b] acc = ([b], acc) := by
    intro s acc
    simp [processLibrary, hfv]
  have hL1 : processLibrary 1 imported [(b, tr)] [] [] = ([b], [(b, strLast tr)]) := by
    simp [processLibrary, hb, eligibleAtStage, htr]
  have hLskip : ∀ (s : Nat) (acc : List (String × String)),
      processLibrary s imported [(b, tr)] [b] acc = ([b], acc) := by
    intro s acc
    simp [processLibrary]
  refine ⟨?_, ?_, ?_⟩
  · -- alias provider first, real provider second
    intro hsA
    have hfindD : dictFindD [(sD, [(fv, tv), (b, ta)]), (sL, [(b, tr)])] sD []
        = [(fv, tv), (b, ta)] := by
      simp [dictFindD, dictFind, List.find?]
    have hfindL : dictFindD [(sD, [(fv, tv), (b, ta)]), (sL, [(b, tr)])] sL []
        = [(b, tr)] := by
      simp [dictFindD, dictFind, List.find?, hsA]
    have hstskip : ∀ s : Nat,
        runStage s imported [(sD, [(fv, tv), (b, ta)]), (sL, [(b, tr)])] [b]
          [(sD, []), (sL, [(b, strLast tr)])]
        = ([b], [(sD, []), (sL, [(b, strLast tr)])]) := by
      intro s
      simp [runStage, hfindD, hfindL, hDskip, hLskip]
    have hst1 : runStage 1 imported [(sD, [(fv, tv), (b, ta)]), (sL, [(b, tr)])] []
        [(sD, []), (sL, [])]
        = ([b], [(sD, []), (sL, [(b, strLast tr)])]) := by
      simp [runStage, hfindD, hfindL, hD1, hL1]
    have hfinal : runStages imported [(sD, [(fv, tv), (b, ta)]), (sL, [(b, tr)])]
        [0, 1, 2] ([], [(sD, []), (sL, [])])
        = ([b], [(sD, []), (sL, [(b, strLast tr)])]) := by
      by_cases htw : isWeakSymbol tr = true
      · have hL0 : processLibrary 0 imported [(b, tr)] [] [] = ([], []) := by
          simp [processLibrary, hb, eligibleAtStage, htr, htw]
        have hst0 : runStage 0 imported [(sD, [(fv, tv), (b, ta)]), (sL, [(b, tr)])] []
            [(sD, []), (sL, [])] = ([], [(sD, []), (sL, [])]) := by
          simp [runStage, hfindD, hfindL, hD0, hL0]
        by_cases hall : (imported.all fun p => List.contains [b] p.1) = true
        · simp [runStages, hst0, hallnil, hex, hst1, hstskip, hall]
        · simp [runStages, hst0, hallnil, hex, hst1, hstskip, hall]
      · have hL0 : processLibrary 0 imported [(b, tr)] [] []
            = ([b], [(b, strLast tr)]) := by
          simp [processLibrary, hb, eligibleAtStage, htr, htw]
        have hst0 : runStage 0 imported [(sD, [(fv, tv), (b, ta)]), (sL, [(b, tr)])] []
            [(sD, []), (sL, [])] = ([b], [(sD, []), (sL, [(b, strLast tr)])]) := by
          simp [runStage, hfindD, hfindL, hD0, hL0]
        by_cases hall : (imported.all fun p => List.contains [b] p.1) = true
        · simp [runStages, hst0, hstskip, hall]
        · simp [runStages, hst0, hstskip, hall]
    exact resolveSymbols_assembly_pair iw imported _ sD pD sL pL b (strLast tr) hsA hfinal
  · -- real provider first, alias provider second
    intro hsB
    have hfindL : dictFindD [(sL, [(b, tr)]), (sD, [(fv, tv), (b, ta)])] sL []
        = [(b, tr)] := by
      simp [dictFindD, dictFind, List.find?]
    have hfindD : dictFindD [(sL, [(b, tr)]), (sD, [(fv, tv), (b, ta)])] sD []
        = [(fv, tv), (b, ta)] := by
      simp [dictFindD, dictFind, List.find?, hsB]
    have hstskip : ∀ s : Nat,
        runStage s imported [(sL, [(b, tr)]), (sD, [(fv, tv), (b, ta)])] [b]
          [(sL, [(b, strLast tr)]), (sD, [])]
        = ([b], [(sL, [(b, strLast tr)]), (sD, [])]) := by
      intro s
      simp [runStage, hfindD, hfindL, hDskip, hLskip]
    have hst1 : runStage 1 imported [(sL, [(b, tr)]), (sD, [(fv, tv), (b, ta)])] []
        [(sL, []), (sD, [])]
        = ([b], [(sL, [(b, strLast tr)]), (sD, [])]) := by
      simp [runStage, hfindD, hfindL, hD1, hL1, hDskip]
    have hfinal : runStages imported [(sL, [(b, tr)]), (sD, [(fv, tv), (b, ta)])]
        [0, 1, 2] ([], [(sL, []), (sD, [])])
        = ([b], [(sL, [(b, strLast tr)]), (sD, [])]) := by
      by_cases htw : isWeakSymbol tr = true
      · have hL0 : processLibrary 0 imported [(b, tr)] [] [] = ([], []) := by
          simp [processLibrary, hb, eligibleAtStage, htr, htw]
        have hst0 : runStage 0 imported [(sL, [(b, tr)]), (sD, [(fv, tv), (b, ta)])] []
            [(sL, []), (sD, [])] = ([], [(sL, []), (sD, [])]) := by
          simp [runStage, hfindD, hfindL, hD0, hL0]
        by_cases hall : (imported.all fun p => List.contains [b] p.1) = true
        · simp [runStages, hst0, hallnil, hex, hst1, hstskip, hall]
        · simp [runStages, hst0, hallnil, hex, hst1, hstskip, hall]
      · have hL0 : processLibrary 0 imported [(b, tr)] [] []
            = ([b], [(b, strLast tr)]) := by
          simp [processLibrary, hb, eligibleAtStage, htr, htw]
        have hst0 : runStage 0 imported [(sL, [(b, tr)]), (sD, [(fv, tv), (b, ta)])] []
            [(sL, []), (sD, [])] = ([b], [(sL, [(b, strLast tr)]), (sD, [])]) := by
          simp [runStage, hfindD, hfindL, hD0, hL0, hDskip]
        by_cases hall : (imported.all fun p => List.contains [b] p.1) = true
        · simp [runStages, hst0, hstskip, hall]
        · simp [runStages, hst0, hstskip, hall]
    exact resolveSymbols_assembly_pair_first iw imported _ sL pL sD pD b (strLast tr) hsB hfinal
  · -- alias provider alone: stage 2 resolves through the alias
    have hfindC : dictFindD [(sD, [(fv, tv), (b, ta)])] sD []
        = [(fv, tv), (b, ta)] := by
      simp [dictFindD, dictFind, List.find?]
    have hst0 : runStage 0 imported [(sD, [(fv, tv), (b, ta)])] [] [(sD, [])]
        = ([], [(sD, [])]) := by
      simp [runStage, hfindC, hD0]
    have hst1 : runStage 1 imported [(sD, [(fv, tv), (b, ta)])] [] [(sD, [])]
        = ([], [(sD, [])]) := by
      simp [runStage, hfindC, hD1]
    have hst2 : runStage 2 imported [(sD, [(fv, tv), (b, ta)])] [] [(sD, [])]
        = ([b], [(sD, [(b, strLast ta)])]) := by
      simp [runStage, hfindC, hD2]
    have hfinal : runStages imported [(sD, [(fv, tv), (b, ta)])] [0, 1, 2]
        ([], [(sD, [])]) = ([b], [(sD, [(b, strLast ta)])]) := by
      rw [runStages, hst0]
      rw [if_neg (by rw [hallnil]; exact Bool.false_ne_true)]
      rw [runStages, hst1]
      rw [if_neg (by rw [hallnil]; exact Bool.false_ne_true)]
      rw [runStages, hst2]
      by_cases hall : (imported.all fun p => List.contains [b] p.1) = true
      · rw [if_pos hall]
      · rw [if_neg hall]
        rw [runStages]
    exact resolveSymbols_assembly_single iw imported _ sD pD b (strLast ta) hfinal

/-- C3, witness for `resolver_alias_last_resort`. -/
theorem resolver_alias_last_resort_witness :
    (∃ rest : List ResultEntry,
        resolveSymbols true [("foo", "U")] [("D", "/d"), ("L", "/l")]
            [("D", [("foo@V1", "T"), ("foo", "~T")]), ("L", [("foo", "W")])]
          = ⟨some "L", some "/l", [("foo", strLast "W")]⟩ :: rest
        ∧ ∀ e ∈ rest, e.soname = none ∧ "foo" ∉ e.symbols.map Prod.fst) ∧
    (∃ rest : List ResultEntry,
        resolveSymbols true [("foo", "U")] [("L", "/l"), ("D", "/d")]
            [("L", [("foo", "W")]), ("D", [("foo@V1", "T"), ("foo", "~T")])]
          = ⟨some "L", some "/l", [("foo", strLast "W")]⟩ :: rest
        ∧ ∀ e ∈ rest, e.soname = none ∧ "foo" ∉ e.symbols.map Prod.fst) ∧
    (∃ rest : List ResultEntry,
        resolveSymbols true [("foo", "U")] [("D", "/d")]
            [("D", [("foo@V1", "T"), ("foo", "~T")])]
          = ⟨some "D", some "/d", [("foo", strLast "~T")]⟩ :: rest
        ∧ ∀ e ∈ rest, e.soname = none ∧ "foo" ∉ e.symbols.map Prod.fst) :=
  ⟨(resolver_alias_last_resort true [("foo", "U")] "foo" "foo@V1" "D" "/d" "L" "/l"
      "T" "~T" "W" (by decide) (by decide) (by decide) (by decide)).1 (by decide),
   (resolver_alias_last_resort true [("foo", "U")] "foo" "foo@V1" "D" "/d" "L" "/l"
      "T" "~T" "W" (by decide) (by decide) (by decide) (by decide)).2.1 (by decide),
   (resolver_alias_last_resort true [("foo", "U")] "foo" "foo@V1" "D" "/d" "L" "/l"
      "T" "~T" "W" (by decide) (by decide) (by decide) (by decide)).2.2⟩

/-! ### C1: the partition property -/

/-- All claimed symbol names across the per-library accumulators. -/
def totalClaims (entries : List (String × List (String × String))) : List String :=
  (entries.map (fun p => p.2.map Prod.fst)).flatten

theorem contains_eq_false_iff (l : List String) (a : String) :
    l.contains a = false ↔ a ∉ l := by
  rw [← Bool.not_eq_true]
  constructor
  · intro h hm
    exact h (List.elem_iff.mpr hm)
  · intro h hm
    exact h (List.elem_iff.mp hm)

theorem contains_eq_true_iff (l : List String) (a : String) :
    l.contains a = true ↔ a ∈ l := List.elem_iff

theorem processLibrary_spec (stage : Nat) (imported : List (String × String)) :
    ∀ (E : List (String × String)) (found : List String) (acc : List (String × String)),
    ∃ d : List (String × String),
      processLibrary stage imported E found acc
        = ((d.map Prod.fst).reverse ++ found, acc ++ d)
      ∧ (∀ n ∈ d.map Prod.fst, n ∉ found ∧ dictContains imported n = true)
      ∧ (d.map Prod.fst).Nodup := by
  intro E
  induction E with
  | nil =>
    intro found acc
    exact ⟨[], by simp [processLibrary], by simp, by simp⟩
  | cons nt rest ih =>
    intro found acc
    obtain ⟨n, t⟩ := nt
    by_cases h1 : (!(found.contains n) && dictContains imported n) = true
    · have hnotc : n ∉ found := by
        have := (Bool.and_eq_true _ _).mp h1
        exact (contains_eq_false_iff found n).mp (by
          have h2 := this.1
          cases hcc : found.contains n
          · rfl
          · rw [hcc] at h2; exact absurd h2 (by decide))
      have himp : dictContains imported n = true := ((Bool.and_eq_true _ _).mp h1).2
      by_cases h2 : eligibleAtStage stage t = true
      · obtain ⟨d', hd', hcond', hnodup'⟩ := ih (n :: found) (acc ++ [(n, strLast t)])
        refine ⟨(n, strLast t) :: d', ?_, ?_, ?_⟩
        · simp only [processLibrary, h1, h2, if_true, hd']
          rw [List.map_cons, List.reverse_cons, List.append_assoc]
          simp [List.append_assoc]
        · intro m hm
          rw [List.map_cons, List.mem_cons] at hm
          rcases hm with hm | hm
          · subst hm
            exact ⟨hnotc, himp⟩
          · obtain ⟨hm1, hm2⟩ := hcond' m hm
            exact ⟨fun hmem => hm1 (List.mem_cons_of_mem n hmem), hm2⟩
        · rw [List.map_cons]
          refine List.Nodup.cons ?_ hnodup'
          intro hmem
          exact (hcond' n hmem).1 (List.mem_cons_self n found)
      · obtain ⟨d', hd', hcond', hnodup'⟩ := ih found acc
        refine ⟨d', ?_, hcond', hnodup'⟩
        simp only [processLibrary, h1, h2, if_true, Bool.false_eq_true, if_false]
        exact hd'
    · obtain ⟨d', hd', hcond', hnodup'⟩ := ih found acc
      refine ⟨d', ?_, hcond', hnodup'⟩
      simp only [processLibrary]
      rw [if_neg h1]
      exact hd'

theorem runStage_spec (stage : Nat) (imported : List (String × String))
    (exported : List (String × List (String × String))) :
    ∀ (entries : List (String × List (String × String))) (found : List String),
    ∃ d : List String,
      (runStage stage imported exported found entries).1 = d ++ found
      ∧ (runStage stage imported exported found entries).2.map Prod.fst
          = entries.map Prod.fst
      ∧ (totalClaims (runStage stage imported exported found entries).2).Perm
          (totalClaims entries ++ d)
      ∧ (∀ n ∈ d, n ∉ found ∧ dictContains imported n = true)
      ∧ d.Nodup := by
  intro entries
  induction entries with
  | nil =>
    intro found
    refine ⟨[], by simp [runStage], by simp [runStage], ?_, by simp, by simp⟩
    simp [runStage, totalClaims]
  | cons ent rest ih =>
    intro found
    obtain ⟨soname, acc⟩ := ent
    obtain ⟨d1, hpl, hcond1, hnodup1⟩ :=
      processLibrary_spec stage imported (dictFindD exported soname []) found acc
    obtain ⟨d2, h1, h2, h3, hcond2, hnodup2⟩ := ih ((d1.map Prod.fst).reverse ++ found)
    have hred : runStage stage imported exported found ((soname, acc) :: rest)
        = ((runStage stage imported exported
              ((d1.map Prod.fst).reverse ++ found) rest).1,
           (soname, acc ++ d1) ::
             (runStage stage imported exported
               ((d1.map Prod.fst).reverse ++ found) rest).2) := by
      simp only [runStage, hpl]
    refine ⟨d2 ++ (d1.map Prod.fst).reverse, ?_, ?_, ?_, ?_, ?_⟩
    · rw [hred, h1, List.append_assoc]
    · rw [hred]
      simp only [List.map_cons, h2]
    · rw [hred]
      rw [List.perm_iff_count]
      intro a
      have hc := h3.count_eq a
      simp only [totalClaims, List.map_cons, List.flatten_cons, List.map_append,
        List.count_append, List.count_reverse] at hc ⊢
      omega
    · intro n hn
      rcases List.mem_append.mp hn with hn | hn
      · obtain ⟨hn1, hn2⟩ := hcond2 n hn
        exact ⟨fun hmem => hn1 (List.mem_append.mpr (Or.inr hmem)), hn2⟩
      · exact hcond1 n (List.mem_reverse.mp hn)
    · rw [List.nodup_append]
      refine ⟨hnodup2, List.nodup_reverse.mpr hnodup1, ?_⟩
      intro a ha ha2
      exact (hcond2 a ha).1 (List.mem_append.mpr (Or.inl ha2))

theorem runStages_spec (imported : List (String × String))
    (exported : List (String × List (String × String))) :
    ∀ (stages : List Nat) (entries : List (String × List (String × String)))
      (found : List String),
    ∃ d : List String,
      (runStages imported exported stages (found, entries)).1 = d ++ found
      ∧ (runStages imported exported stages (found, entries)).2.map Prod.fst
          = entries.map Prod.fst
      ∧ (totalClaims (runStages imported exported stages (found, entries)).2).Perm
          (totalClaims entries ++ d)
      ∧ (∀ n ∈ d, n ∉ found ∧ dictContains imported n = true)
      ∧ d.Nodup := by
  intro stages
  induction stages with
  | nil =>
    intro entries found
    exact ⟨[], by simp [runStages], by simp [runStages], by simp [runStages],
      by simp, by simp⟩
  | cons s ss ih =>
    intro entries found
    obtain ⟨d1, h1, h2, h3, hcond1, hnodup1⟩ :=
      runStage_spec s imported exported entries found
    have hred : runStages imported exported (s :: ss) (found, entries)
        = (if (imported.all fun p =>
              (runStage s imported exported found entries).1.contains p.1) = true
           then runStage s imported exported found entries
           else runStages imported exported ss
             (runStage s imported exported found entries)) := by
      simp only [runStages]
    by_cases hall : (imported.all fun p =>
        (runStage s imported exported found entries).1.contains p.1) = true
    · rw [hred, if_pos hall]
      exact ⟨d1, h1, h2, h3, hcond1, hnodup1⟩
    · obtain ⟨d2, g1, g2, g3, hcond2, hnodup2⟩ :=
        ih (runStage s imported exported found entries).2
           (runStage s imported exported found entries).1
      rw [Prod.mk.eta] at g1 g2 g3
      refine ⟨d2 ++ d1, ?_, ?_, ?_, ?_, ?_⟩
      · rw [hred, if_neg hall, g1, h1, List.append_assoc]
      · rw [hred, if_neg hall, g2, h2]
      · rw [hred, if_neg hall]
        rw [List.perm_iff_count]
        intro a
        have hc2 := g3.count_eq a
        have hc3 := h3.count_eq a
        simp only [List.count_append] at hc2 hc3 ⊢
        omega
      · intro n hn
        rcases List.mem_append.mp hn with hn | hn
        · obtain ⟨hn1, hn2⟩ := hcond2 n hn
          rw [h1] at hn1
          exact ⟨fun hmem => hn1 (List.mem_append.mpr (Or.inr hmem)), hn2⟩
        · exact hcond1 n hn
      · rw [List.nodup_append]
        refine ⟨hnodup2, hnodup1, ?_⟩
        intro a ha ha2
        have := (hcond2 a ha).1
        rw [h1] at this
        exact this (List.mem_append.mpr (Or.inl ha2))

theorem totalClaims_init (deps : List (String × String)) :
    totalClaims (deps.map (fun p => (p.1, ([] : List (String × String))))) = [] := by
  simp [totalClaims, List.map_map]

theorem filter_map_fst (imported : List (String × String)) (d : List String) :
    (imported.filter (fun p => !(d.contains p.1))).map Prod.fst
      = (imported.map Prod.fst).filter (fun k => !(d.contains k)) := by
  induction imported with
  | nil => rfl
  | cons q rest ih =>
    simp only [List.map_cons, List.filter_cons]
    simp at ih
    by_cases hq : q.1 ∈ d
    · simp [hq, ih]
    · simp [hq, ih]

theorem claims_filter_partition (imported : List (String × String)) (d : List String)
    (himp : (imported.map Prod.fst).Nodup) (hd : d.Nodup)
    (hmem : ∀ n ∈ d, n ∈ imported.map Prod.fst) :
    (d ++ (imported.filter (fun p => !(d.contains p.1))).map Prod.fst).Perm
      (imported.map Prod.fst) := by
  have hsplit := List.filter_append_perm (fun k => d.contains k) (imported.map Prod.fst)
  have hperm1 : d.Perm ((imported.map Prod.fst).filter (fun k => d.contains k)) := by
    apply (List.perm_ext_iff_of_nodup hd (List.Nodup.filter _ himp)).mpr
    intro a
    constructor
    · intro ha
      exact List.mem_filter.mpr ⟨hmem a ha, (contains_eq_true_iff d a).mpr ha⟩
    · intro ha
      exact (contains_eq_true_iff d a).mp (List.mem_filter.mp ha).2
  rw [filter_map_fst]
  exact (hperm1.append (List.Perm.refl _)).trans hsplit

theorem entries_claims_perm :
    ∀ (res : List (String × List (String × String))) (deps : List (String × String)),
    res.map Prod.fst = deps.map Prod.fst → (deps.map Prod.fst).Nodup →
    ((deps.filterMap (fun p =>
        if (dictFindD res p.1 []).length > 0 then
          some (⟨some p.1, some p.2, sortByName (dictFindD res p.1 [])⟩ : ResultEntry)
        else none)).map (fun e => e.symbols.map Prod.fst)).flatten.Perm
      (totalClaims res) := by
  intro res
  induction res with
  | nil =>
    intro deps hkeys _
    have : deps = [] := by
      cases deps with
      | nil => rfl
      | cons q r => exact absurd hkeys (by simp)
    subst this
    simp [totalClaims]
  | cons r res' ih =>
    intro deps hkeys hnodup
    obtain ⟨s, acc⟩ := r
    cases deps with
    | nil => exact absurd hkeys (by simp)
    | cons q deps' =>
      obtain ⟨s', p⟩ := q
      have hs : s = s' := by
        simpa using congrArg (fun l => l.headD "") hkeys
      subst hs
      have htail : res'.map Prod.fst = deps'.map Prod.fst := by
        simpa using congrArg List.tail hkeys
      have hnodup' : (deps'.map Prod.fst).Nodup := (List.nodup_cons.mp (by simpa using hnodup)).2
      have hsnot : s ∉ deps'.map Prod.fst := (List.nodup_cons.mp (by simpa using hnodup)).1
      have hhead : dictFindD ((s, acc) :: res') s [] = acc := by
        simp [dictFindD, dictFind, List.find?]
      have hcongr : ∀ q' ∈ deps',
          (if (dictFindD ((s, acc) :: res') q'.1 []).length > 0 then
            some (⟨some q'.1, some q'.2,
              sortByName (dictFindD ((s, acc) :: res') q'.1 [])⟩ : ResultEntry)
          else none)
          = (if (dictFindD res' q'.1 []).length > 0 then
            some (⟨some q'.1, some q'.2, sortByName (dictFindD res' q'.1 [])⟩ : ResultEntry)
          else none) := by
        intro q' hq'
        have hne : (s == q'.1) = false := by
          refine beq_eq_false_iff_ne.mpr ?_
          intro h
          exact hsnot (h ▸ List.mem_map.mpr ⟨q', hq', rfl⟩)
        have : dictFindD ((s, acc) :: res') q'.1 [] = dictFindD res' q'.1 [] := by
          simp [dictFindD, dictFind, List.find?, hne]
        rw [this]
      rw [List.filterMap_cons]
      have hTC : totalClaims ((s, acc) :: res')
          = acc.map Prod.fst ++ totalClaims res' := by
        simp [totalClaims]
      by_cases hlen : acc.length > 0
      · rw [hhead, if_pos hlen]
        simp only [List.map_cons, List.flatten_cons, hTC]
        rw [List.filterMap_congr hcongr]
        refine List.Perm.append ?_ (ih deps' htail hnodup')
        exact (sortByName_perm acc).map Prod.fst
      · have hacc : acc = [] := by
          cases acc with
          | nil => rfl
          | cons a r => simp at hlen
        subst hacc
        rw [hhead, if_neg hlen]
        rw [List.filterMap_congr hcongr]
        have := ih deps' htail hnodup'
        simpa [hTC] using this

/-- C1 (amended): with weak-filtering disabled, the result is an exact
partition of the imported symbol set. -/
theorem resolveSymbols_partition (imported deps : List (String × String))
    (exported : List (String × List (String × String)))
    (h1 : (imported.map Prod.fst).Nodup)
    (h2 : (deps.map Prod.fst).Nodup) :
    (((resolveSymbols false imported deps exported).map
        (fun e => e.symbols.map Prod.fst)).flatten).Perm (imported.map Prod.fst) := by
  obtain ⟨d, hf1, hf2, hf3, hcond, hnodup⟩ :=
    runStages_spec imported exported [0, 1, 2]
      (deps.map (fun p => (p.1, ([] : List (String × String))))) []
  rw [List.append_nil] at hf1
  rw [totalClaims_init, List.nil_append] at hf3
  have hkeys : (runStages imported exported [0, 1, 2]
      ([], deps.map (fun p => (p.1, ([] : List (String × String)))))).2.map Prod.fst
      = deps.map Prod.fst := by
    rw [hf2, List.map_map]
    rfl
  have hdmem : ∀ n ∈ d, n ∈ imported.map Prod.fst := by
    intro n hn
    obtain ⟨p, hp, hpk⟩ := List.any_eq_true.mp (hcond n hn).2
    exact List.mem_map.mpr ⟨p, hp, eq_of_beq hpk⟩
  simp only [resolveSymbols, Bool.false_eq_true, if_false]
  rw [hf1]
  by_cases hlen : (imported.filter (fun p => !(d.contains p.1))).length > 0
  · rw [if_pos hlen]
    rw [List.map_append, List.flatten_append]
    have hperm1 := entries_claims_perm
      (runStages imported exported [0, 1, 2]
        ([], deps.map (fun p => (p.1, ([] : List (String × String)))))).2
      deps hkeys h2
    have hperm2 : ((sortByName (imported.filter (fun p => !(d.contains p.1)))).map
        Prod.fst).Perm ((imported.filter (fun p => !(d.contains p.1))).map Prod.fst) :=
      (sortByName_perm _).map Prod.fst
    have hstep : ((([⟨none, none, sortByName
        (imported.filter (fun p => !(d.contains p.1)))⟩] : List ResultEntry).map
        (fun e => e.symbols.map Prod.fst)).flatten).Perm
        ((imported.filter (fun p => !(d.contains p.1))).map Prod.fst) := by
      simpa using hperm2
    refine ((hperm1.trans hf3).append hstep).trans ?_
    exact claims_filter_partition imported d h1 hnodup hdmem
  · rw [if_neg hlen]
    have hU0 : imported.filter (fun p => !(d.contains p.1)) = [] :=
      List.eq_nil_of_length_eq_zero (Nat.eq_zero_of_not_pos hlen)
    have hpart := claims_filter_partition imported d h1 hnodup hdmem
    rw [hU0] at hpart
    simp only [List.map_nil, List.append_nil] at hpart
    have hperm1 := entries_claims_perm
      (runStages imported exported [0, 1, 2]
        ([], deps.map (fun p => (p.1, ([] : List (String × String)))))).2
      deps hkeys h2
    exact (hperm1.trans hf3).trans hpart

/-- C1, counterexample: with the default weak-filtering enabled, a weak
unresolved import (type `w`) is dropped from the result entirely, so the
union of result symbols is empty while the imported set is not — the
partition fails as stated. -/
theorem c1_weak_filter_counterexample :
    resolveSymbols true [("z", "w")] [("libc", "/libc")] [("libc", [])] = []
    ∧ (((resolveSymbols true [("z", "w")] [("libc", "/libc")] [("libc", [])]).map
        (fun e => e.symbols.map Prod.fst)).flatten) = []
    ∧ ([("z", "w")].map Prod.fst) = ["z"] := ⟨rfl, rfl, rfl⟩

/-- C1, witness for `resolveSymbols_partition`. -/
theorem resolveSymbols_partition_witness :
    (((resolveSymbols false [("a", "U"), ("z", "w")] [("L1", "/1")]
        [("L1", [("a", "T")])]).map (fun e => e.symbols.map Prod.fst)).flatten).Perm
      ([("a", "U"), ("z", "w")].map Prod.fst) :=
  resolveSymbols_partition [("a", "U"), ("z", "w")] [("L1", "/1")]
    [("L1", [("a", "T")])] (by decide) (by decide)

/-! ### C8: cache memoization and traversal deduplication -/
/-- Every symbol of `E` that is imported and eligible at this stage is
found: the state a library leaves behind after its own sweep. -/
def saturated (stage : Nat) (imported : List (String × String))
    (E : List (String × String)) (found : List String) : Prop :=
  ∀ p ∈ E, dictContains imported p.1 = true → eligibleAtStage stage p.2 = true →
    p.1 ∈ found

theorem processLibrary_mono (stage : Nat) (imported : List (String × String))
    (E : List (String × String)) (found : List String)
    (acc : List (String × String)) (a : String) (ha : a ∈ found) :
    a ∈ (processLibrary stage imported E found acc).1 := by
  obtain ⟨d, hd, -, -⟩ := processLibrary_spec stage imported E found acc
  rw [hd]
  exact List.mem_append.mpr (Or.inr ha)

theorem processLibrary_saturates (stage : Nat) (imported : List (String × String)) :
    ∀ (E : List (String × String)) (found : List String)
      (acc : List (String × String)),
    saturated stage imported E (processLibrary stage imported E found acc).1 := by
  intro E
  induction E with
  | nil => intro found acc p hp; exact absurd hp (List.not_mem_nil p)
  | cons nt rest ih =>
    intro found acc
    obtain ⟨n, t⟩ := nt
    intro p hp himp helig
    rcases List.mem_cons.mp hp with hp | hp
    · subst hp
      by_cases h1 : (!(found.contains n) && dictContains imported n) = true
      · by_cases h2 : eligibleAtStage stage t = true
        · simp only [processLibrary, h1, h2, if_true]
          exact processLibrary_mono stage imported rest (n :: found) _ n
            (List.mem_cons_self n found)
        · simp only [processLibrary, h1, h2, if_true, Bool.false_eq_true, if_false]
          exact absurd helig h2
      · simp only [processLibrary]
        rw [if_neg h1]
        have hcont : found.contains n = true := by
          cases hcc : found.contains n
          · rw [Bool.not_eq_true] at h1
            rw [hcc] at h1
            simp [himp] at h1
          · rfl
        exact processLibrary_mono stage imported rest found acc n
          ((contains_eq_true_iff found n).mp hcont)
    · by_cases h1 : (!(found.contains n) && dictContains imported n) = true
      · by_cases h2 : eligibleAtStage stage t = true
        · simp only [processLibrary, h1, h2, if_true]
          exact ih (n :: found) _ p hp himp helig
        · simp only [processLibrary, h1, h2, if_true, Bool.false_eq_true, if_false]
          exact ih found acc p hp himp helig
      · simp only [processLibrary]
        rw [if_neg h1]
        exact ih found acc p hp himp helig

theorem processLibrary_skip (stage : Nat) (imported : List (String × String)) :
    ∀ (E : List (String × String)) (found : List String)
      (acc : List (String × String)),
    saturated stage imported E found →
    processLibrary stage imported E found acc = (found, acc) := by
  intro E
  induction E with
  | nil => intro found acc _; rfl
  | cons nt rest ih =>
    intro found acc hsat
    obtain ⟨n, t⟩ := nt
    have htail : saturated stage imported rest found := by
      intro p hp
      exact hsat p (List.mem_cons_of_mem _ hp)
    by_cases h1 : (!(found.contains n) && dictContains imported n) = true
    · have himp : dictContains imported n = true := ((Bool.and_eq_true _ _).mp h1).2
      have hnc : found.contains n = false := by
        have := ((Bool.and_eq_true _ _).mp h1).1
        cases hcc : found.contains n
        · rfl
        · rw [hcc] at this; exact absurd this (by decide)
      by_cases h2 : eligibleAtStage stage t = true
      · have := hsat (n, t) (List.mem_cons_self _ _) himp h2
        exact absurd this ((contains_eq_false_iff found n).mp hnc)
      · simp only [processLibrary, h1, h2, if_true, Bool.false_eq_true, if_false]
        exact ih found acc htail
    · simp only [processLibrary]
      rw [if_neg h1]
      exact ih found acc htail

theorem runStage_found_mono (stage : Nat) (imported : List (String × String))
    (exported : List (String × List (String × String)))
    (entries : List (String × List (String × String))) (found : List String)
    (a : String) (ha : a ∈ found) :
    a ∈ (runStage stage imported exported found entries).1 := by
  obtain ⟨d, hd, -, -, -, -⟩ := runStage_spec stage imported exported entries found
  rw [hd]
  exact List.mem_append.mpr (Or.inr ha)

theorem runStage_skip_entry (stage : Nat) (imported : List (String × String))
    (exported : List (String × List (String × String)))
    (E : List (String × String)) (sB : String)
    (hEB : dictFindD exported sB [] = E) :
    ∀ (entries : List (String × List (String × String))) (found : List String),
    saturated stage imported E found →
    [(sB, ([] : List (String × String)))].Sublist entries →
    [(sB, ([] : List (String × String)))].Sublist
      (runStage stage imported exported found entries).2 := by
  intro entries
  induction entries with
  | nil =>
    intro found _ hsub
    exact absurd hsub (by simp)
  | cons ent rest ih =>
    intro found hsat hsub
    obtain ⟨s0, a0⟩ := ent
    have hred : (runStage stage imported exported found ((s0, a0) :: rest)).2
        = (s0, (processLibrary stage imported (dictFindD exported s0 []) found a0).2)
          :: (runStage stage imported exported
              (processLibrary stage imported (dictFindD exported s0 []) found a0).1
              rest).2 := by
      simp only [runStage]
    cases hsub with
    | cons _ hsub' =>
      rw [hred]
      refine List.Sublist.cons _ ?_
      refine ih _ ?_ hsub'
      intro p hp himp helig
      exact processLibrary_mono stage imported _ found a0 p.1 (hsat p hp himp helig)
    | cons₂ _ hsub' =>
      rw [hred, hEB, processLibrary_skip stage imported E found [] hsat]
      exact List.Sublist.cons₂ _ (List.nil_sublist _)

theorem runStage_dup_second_empty (stage : Nat) (imported : List (String × String))
    (exported : List (String × List (String × String)))
    (E : List (String × String)) (sA sB : String)
    (hEA : dictFindD exported sA [] = E) (hEB : dictFindD exported sB [] = E) :
    ∀ (entries : List (String × List (String × String))) (found : List String),
    (∃ aA, [(sA, aA), (sB, ([] : List (String × String)))].Sublist entries) →
    ∃ aA', [(sA, aA'), (sB, ([] : List (String × String)))].Sublist
      (runStage stage imported exported found entries).2 := by
  intro entries
  induction entries with
  | nil =>
    intro found h
    obtain ⟨aA, hsub⟩ := h
    exact absurd hsub (by simp)
  | cons ent rest ih =>
    intro found h
    obtain ⟨aA, hsub⟩ := h
    obtain ⟨s0, a0⟩ := ent
    have hred : (runStage stage imported exported found ((s0, a0) :: rest)).2
        = (s0, (processLibrary stage imported (dictFindD exported s0 []) found a0).2)
          :: (runStage stage imported exported
              (processLibrary stage imported (dictFindD exported s0 []) found a0).1
              rest).2 := by
      simp only [runStage]
    cases hsub with
    | cons _ hsub' =>
      obtain ⟨aA', hres⟩ := ih _ ⟨aA, hsub'⟩
      rw [hred]
      exact ⟨aA', List.Sublist.cons _ hres⟩
    | cons₂ _ hsub' =>
      rw [hred]
      have hsat : saturated stage imported E
          (processLibrary stage imported (dictFindD exported sA []) found aA).1 := by
        rw [hEA]
        exact fun p hp himp helig =>
          processLibrary_saturates stage imported E found aA p hp himp helig
      refine ⟨(processLibrary stage imported (dictFindD exported sA []) found aA).2, ?_⟩
      exact List.Sublist.cons₂ _
        (runStage_skip_entry stage imported exported E sB hEB rest _ hsat hsub')

theorem runStages_dup_second_empty (imported : List (String × String))
    (exported : List (String × List (String × String)))
    (E : List (String × String)) (sA sB : String)
    (hEA : dictFindD exported sA [] = E) (hEB : dictFindD exported sB [] = E) :
    ∀ (stages : List Nat) (st : List String × List (String × List (String × String))),
    (∃ aA, [(sA, aA), (sB, ([] : List (String × String)))].Sublist st.2) →
    ∃ aA', [(sA, aA'), (sB, ([] : List (String × String)))].Sublist
      (runStages imported exported stages st).2 := by
  intro stages
  induction stages with
  | nil => intro st h; exact h
  | cons s ss ih =>
    intro st h
    have hstep := runStage_dup_second_empty s imported exported E sA sB hEA hEB
      st.2 st.1 h
    have hred : runStages imported exported (s :: ss) st
        = (if (imported.all fun p =>
              (runStage s imported exported st.1 st.2).1.contains p.1) = true
           then runStage s imported exported st.1 st.2
           else runStages imported exported ss
             (runStage s imported exported st.1 st.2)) := by
      simp only [runStages]
    rw [hred]
    by_cases hall : (imported.all fun p =>
        (runStage s imported exported st.1 st.2).1.contains p.1) = true
    · rw [if_pos hall]
      exact hstep
    · rw [if_neg hall]
      exact ih _ hstep

theorem dictFindD_eq_of_mem_nodup (res : List (String × List (String × String)))
    (s : String) (v : List (String × String)) (hm : (s, v) ∈ res)
    (hnodup : (res.map Prod.fst).Nodup) : dictFindD res s [] = v := by
  induction res with
  | nil => exact absurd hm (List.not_mem_nil _)
  | cons r rest ih =>
    obtain ⟨s0, a0⟩ := r
    rcases List.mem_cons.mp hm with hm | hm
    · obtain ⟨h1, h2⟩ := Prod.mk.injEq .. ▸ hm.symm
      subst h1
      subst h2
      simp [dictFindD, dictFind, List.find?]
    · have hs0 : (s0 == s) = false := by
        refine beq_eq_false_iff_ne.mpr ?_
        intro h
        subst h
        have := (List.nodup_cons.mp
          (show (s0 :: rest.map Prod.fst).Nodup from hnodup)).1
        exact this (List.mem_map.mpr ⟨(s0, v), hm, rfl⟩)
      have ihr := ih hm (List.nodup_cons.mp
        (show (s0 :: rest.map Prod.fst).Nodup from hnodup)).2
      simpa [dictFindD, dictFind, List.find?, hs0] using ihr

theorem filterMap_if_sublist {β : Type} (l : List (String × String))
    (C : String × String → Prop) [DecidablePred C] (g : String × String → β) :
    (l.filterMap (fun p => if C p then some (g p) else none)).Sublist (l.map g) := by
  induction l with
  | nil => exact List.Sublist.refl _
  | cons q rest ih =>
    rw [List.filterMap_cons, List.map_cons]
    by_cases hq : C q
    · rw [if_pos hq]
      exact List.Sublist.cons₂ _ ih
    · rw [if_neg hq]
      exact List.Sublist.cons _ ih

theorem filterMap_if_nodup (l : List (String × String))
    (C : String × String → Prop) [DecidablePred C]
    (h : l.Pairwise (fun p q => p.2 = q.2 → ¬ C q)) :
    (l.filterMap (fun p => if C p then some p.2 else none)).Nodup := by
  induction l with
  | nil => exact List.nodup_nil
  | cons q rest ih =>
    obtain ⟨hhead, htail⟩ := List.pairwise_cons.mp h
    rw [List.filterMap_cons]
    by_cases hq : C q
    · rw [if_pos hq]
      refine List.Nodup.cons ?_ (ih htail)
      intro hmem
      obtain ⟨q', hq', heq⟩ := List.mem_filterMap.mp hmem
      by_cases hc : C q'
      · rw [if_pos hc] at heq
        have hval : q'.2 = q.2 := by injection heq
        exact hhead q' hq' hval.symm hc
      · rw [if_neg hc] at heq
        exact absurd heq (by simp)
    · rw [if_neg hq]
      exact ih htail

theorem mergeDict_keys_nodup (pre fresh : List (String × String))
    (h1 : (pre.map Prod.fst).Nodup) (h2 : (fresh.map Prod.fst).Nodup) :
    ((mergeDict (some pre) (some fresh)).map Prod.fst).Nodup := by
  show ((pre ++ fresh.filter (fun p => !(dictContains pre p.1))).map Prod.fst).Nodup
  rw [List.map_append, List.nodup_append]
  refine ⟨h1, List.Nodup.sublist ((List.filter_sublist fresh).map Prod.fst) h2, ?_⟩
  intro a ha ha2
  obtain ⟨q, hq, hqa⟩ := List.mem_map.mp ha2
  have hcont := (List.mem_filter.mp hq).2
  have : dictContains pre q.1 = false := by
    cases hcc : dictContains pre q.1
    · rfl
    · rw [hcc] at hcont; exact absurd hcont (by decide)
  subst hqa
  obtain ⟨r, hr, hra⟩ := List.mem_map.mp ha
  have := List.any_eq_false.mp this r hr
  rw [hra] at this
  exact this (beq_self_eq_true q.1)

theorem filterMap_path_entries (deps : List (String × String))
    (res : List (String × List (String × String))) :
    ((deps.filterMap (fun p =>
        if (dictFindD res p.1 []).length > 0 then
          some (⟨some p.1, some p.2, sortByName (dictFindD res p.1 [])⟩ : ResultEntry)
        else none)).filterMap (fun e => e.path))
      = deps.filterMap (fun p =>
          if (dictFindD res p.1 []).length > 0 then some p.2 else none) := by
  rw [List.filterMap_filterMap]
  apply List.filterMap_congr
  intro q _
  split
  · rfl
  · rfl

theorem entryPathPairs_entries (deps : List (String × String))
    (res : List (String × List (String × String))) :
    entryPathPairs (deps.filterMap (fun p =>
        if (dictFindD res p.1 []).length > 0 then
          some (⟨some p.1, some p.2, sortByName (dictFindD res p.1 [])⟩ : ResultEntry)
        else none))
      = deps.filterMap (fun p =>
          if (dictFindD res p.1 []).length > 0 then some (p.1, p.2) else none) := by
  unfold entryPathPairs
  rw [List.filterMap_filterMap]
  apply List.filterMap_congr
  intro q _
  split
  · rfl
  · rfl

theorem filterMap_path_append_bucket (E : List ResultEntry)
    (X : List (String × String)) :
    ((E ++ [(⟨none, none, X⟩ : ResultEntry)]).filterMap (fun e => e.path))
      = E.filterMap (fun e => e.path) := by
  rw [List.filterMap_append]
  simp

theorem entryPathPairs_append_bucket (E : List ResultEntry)
    (X : List (String × String)) :
    entryPathPairs (E ++ [(⟨none, none, X⟩ : ResultEntry)]) = entryPathPairs E := by
  unfold entryPathPairs
  rw [List.filterMap_append]
  simp

theorem resolveSymbols_filterMap_path (iw : Bool) (imported deps : List (String × String))
    (exported : List (String × List (String × String))) :
    (resolveSymbols iw imported deps exported).filterMap (fun e => e.path)
      = deps.filterMap (fun p =>
          if (dictFindD (runStages imported exported [0, 1, 2]
              ([], deps.map (fun q => (q.1, ([] : List (String × String)))))).2 p.1 []).length > 0
          then some p.2 else none) := by
  simp only [resolveSymbols]
  split <;> split
  all_goals first
    | rw [filterMap_path_append_bucket, filterMap_path_entries]
    | rw [filterMap_path_entries]

theorem resolveSymbols_entryPathPairs (iw : Bool) (imported deps : List (String × String))
    (exported : List (String × List (String × String))) :
    entryPathPairs (resolveSymbols iw imported deps exported)
      = deps.filterMap (fun p =>
          if (dictFindD (runStages imported exported [0, 1, 2]
              ([], deps.map (fun q => (q.1, ([] : List (String × String)))))).2 p.1 []).length > 0
          then some (p.1, p.2) else none) := by
  simp only [resolveSymbols]
  split <;> split
  all_goals first
    | rw [entryPathPairs_append_bucket, entryPathPairs_entries]
    | rw [entryPathPairs_entries]

theorem resolveSymbols_paths_nodup (iw : Bool) (imported deps : List (String × String))
    (exported : List (String × List (String × String)))
    (hkeys : (deps.map Prod.fst).Nodup)
    (hexp : ∀ p q : String × String, [p, q].Sublist deps → p.2 = q.2 →
      dictFindD exported p.1 [] = dictFindD exported q.1 []) :
    ((resolveSymbols iw imported deps exported).filterMap (fun e => e.path)).Nodup := by
  rw [resolveSymbols_filterMap_path]
  apply filterMap_if_nodup
  rw [List.pairwise_iff_forall_sublist]
  intro a b hab hpath
  obtain ⟨-, -, hf2, -, -, -⟩ :=
    runStages_spec imported exported [0, 1, 2] (deps.map (fun q => (q.1, []))) []
  have hfkeys : ((runStages imported exported [0, 1, 2]
      ([], deps.map (fun q => (q.1, ([] : List (String × String)))))).2.map
        Prod.fst).Nodup := by
    rw [hf2, List.map_map]
    exact hkeys
  have hsub0 : [(a.1, ([] : List (String × String))), (b.1, [])].Sublist
      (deps.map (fun q => (q.1, ([] : List (String × String))))) :=
    hab.map (fun q : String × String => (q.1, ([] : List (String × String))))
  obtain ⟨aA', hsubF⟩ := runStages_dup_second_empty imported exported
    (dictFindD exported a.1 []) a.1 b.1 rfl (hexp a b hab hpath).symm
    [0, 1, 2] ([], deps.map (fun q => (q.1, []))) ⟨[], hsub0⟩
  have hmem : ((b.1, ([] : List (String × String)))) ∈
      (runStages imported exported [0, 1, 2]
        ([], deps.map (fun q => (q.1, ([] : List (String × String)))))).2 :=
    hsubF.subset (by simp)
  have hfind := dictFindD_eq_of_mem_nodup _ b.1 [] hmem hfkeys
  rw [hfind]
  simp

theorem resolveSymbols_pathPairs_keys_nodup (iw : Bool)
    (imported deps : List (String × String))
    (exported : List (String × List (String × String)))
    (hkeys : (deps.map Prod.fst).Nodup) :
    ((entryPathPairs (resolveSymbols iw imported deps exported)).map Prod.fst).Nodup := by
  rw [resolveSymbols_entryPathPairs, List.map_filterMap]
  have hcongr : deps.filterMap (fun p =>
      ((if (dictFindD (runStages imported exported [0, 1, 2]
          ([], deps.map (fun q => (q.1, ([] : List (String × String)))))).2 p.1 []).length > 0
        then some (p.1, p.2) else none) : Option (String × String)).map Prod.fst)
      = deps.filterMap (fun p =>
          if (dictFindD (runStages imported exported [0, 1, 2]
              ([], deps.map (fun q => (q.1, ([] : List (String × String)))))).2 p.1 []).length > 0
          then some p.1 else none) := by
    apply List.filterMap_congr
    intro q _
    split
    · rfl
    · rfl
  rw [hcongr]
  exact List.Nodup.sublist (filterMap_if_sublist deps _ Prod.fst) hkeys

/-- The dependency dictionaries an environment produces have unique
sonames, as every dictionary built by `_detect_dependencies` does. -/
def EnvOk (env : Env) : Prop :=
  ∀ f : String, ((env.deps f).map Prod.fst).Nodup

/-- The fact the environment associates with a cache key. -/
def envFact (env : Env) (k : String × String) : List (String × String) :=
  if k.1 = "dep" then env.deps k.2
  else if k.1 = "imp" then env.imps k.2
  else if k.1 = "exp" then env.exps k.2
  else []

/-- Every entry of the cache is the fact the environment would produce:
the state `_lazy_compute` maintains when the factories are pure. -/
def CacheOk (env : Env) (cache : Cache) : Prop :=
  ∀ (k : String × String) (v : List (String × String)),
    dictFind cache k = some v → v = envFact env k

theorem lazyCompute_cacheok (env : Env) (cache : Cache) (cat key : String)
    (fac : String → List (String × String)) (hok : CacheOk env cache)
    (hfac : fac key = envFact env (cat, key)) :
    (lazyCompute cache cat key fac).1 = envFact env (cat, key)
    ∧ CacheOk env (lazyCompute cache cat key fac).2 := by
  cases hf : dictFind cache (cat, key) with
  | some v =>
    rw [lazyCompute_hit cache cat key fac v hf]
    exact ⟨hok (cat, key) v hf, hok⟩
  | none =>
    rw [lazyCompute_miss cache cat key fac hf]
    refine ⟨hfac, ?_⟩
    intro k' v' hk'
    rw [dictFind_append] at hk'
    cases hf2 : dictFind cache k' with
    | some w =>
      rw [hf2] at hk'
      simp only [Option.or] at hk'
      exact hok k' v' (by rw [hf2, hk'])
    | none =>
      rw [hf2] at hk'
      simp only [Option.or] at hk'
      by_cases hkk : (((cat, key) : String × String) == k') = true
      · have : (cat, key) = k' := eq_of_beq hkk
        subst this
        have : dictFind [((cat, key), fac key)] (cat, key) = some (fac key) := by
          simp [dictFind, List.find?]
        rw [this] at hk'
        injection hk' with hk''
        rw [← hk'', hfac]
      · have hkkf : (((cat, key) : String × String) == k') = false := by
          cases hb : ((cat, key) : String × String) == k'
          · rfl
          · exact absurd hb hkk
        have : dictFind [((cat, key), fac key)] k' = none := by
          simp [dictFind, List.find?, hkkf]
        rw [this] at hk'
        exact absurd hk' (by simp)

theorem buildExported_cons (env : Env) (library filename : String)
    (rest : List (String × String)) (cache : Cache) :
    buildExported env ((library, filename) :: rest) cache
      = (if env.readable filename then
          match buildExported env rest (lazyCompute cache "exp" filename env.exps).2 with
          | .ok (es, cache') =>
            .ok ((library, (lazyCompute cache "exp" filename env.exps).1) :: es, cache')
          | .error e => .error e
        else .error "Required library not found or access denied!") := rfl

theorem buildExported_spec (env : Env) :
    ∀ (deps : List (String × String)) (cache : Cache), CacheOk env cache →
    ∀ (ex : List (String × List (String × String))) (cache' : Cache),
    buildExported env deps cache = .ok (ex, cache') →
    ex = deps.map (fun p => (p.1, env.exps p.2)) ∧ CacheOk env cache' := by
  intro deps
  induction deps with
  | nil =>
    intro cache hok ex cache' h
    unfold buildExported at h
    injection h with h1
    rw [Prod.mk.injEq] at h1
    obtain ⟨h1, h2⟩ := h1
    subst h1
    subst h2
    exact ⟨rfl, hok⟩
  | cons q rest ih =>
    intro cache hok ex cache' h
    obtain ⟨library, filename⟩ := q
    rw [buildExported_cons] at h
    by_cases hr : env.readable filename = true
    · rw [if_pos hr] at h
      have hfac : env.exps filename = envFact env ("exp", filename) := rfl
      obtain ⟨hv, hok2⟩ :=
        lazyCompute_cacheok env cache "exp" filename env.exps hok hfac.symm
      cases hrest : buildExported env rest (lazyCompute cache "exp" filename env.exps).2 with
      | error e =>
        rw [hrest] at h
        exact absurd h (by simp)
      | ok pr =>
        obtain ⟨es, cache''⟩ := pr
        rw [hrest] at h
        obtain ⟨hes, hok3⟩ := ih _ hok2 es cache'' hrest
        injection h with h1
        rw [Prod.mk.injEq] at h1
        obtain ⟨hx1, hx2⟩ := h1
        subst hx1
        subst hx2
        refine ⟨?_, hok3⟩
        rw [List.map_cons, ← hes, hv]
        rfl
    · rw [if_neg hr] at h
      exact absurd h (by simp)

theorem dictFindD_map_exps (g : String → List (String × String)) :
    ∀ (deps : List (String × String)) (p : String × String), p ∈ deps →
    (deps.map Prod.fst).Nodup →
    dictFindD (deps.map (fun q => (q.1, g q.2))) p.1 [] = g p.2 := by
  intro deps
  induction deps with
  | nil => intro p hp _; exact absurd hp (List.not_mem_nil p)
  | cons q0 rest ih =>
    intro p hp hnodup
    have hnd := List.nodup_cons.mp
      (show (q0.1 :: rest.map Prod.fst).Nodup from hnodup)
    rcases List.mem_cons.mp hp with hp | hp
    · subst hp
      simp [dictFindD, dictFind, List.find?]
    · have hne : (q0.1 == p.1) = false := by
        refine beq_eq_false_iff_ne.mpr ?_
        intro h
        exact hnd.1 (h ▸ List.mem_map.mpr ⟨p, hp, rfl⟩)
      have := ih p hp hnd.2
      simpa [dictFindD, dictFind, List.find?, hne] using this

theorem mergeDict_none_keys (fresh : List (String × String)) :
    mergeDict none (some fresh) = fresh := by
  show [] ++ fresh.filter (fun p => !(dictContains [] p.1)) = fresh
  rw [List.nil_append]
  exact List.filter_eq_self.mpr (fun a _ => rfl)

theorem processFileRecursive_ok_spec (env : Env) (f : String) (iw : Bool)
    (cache : Cache) (pre : Option (List (String × String)))
    (henv : EnvOk env) (hok : CacheOk env cache)
    (hpre : ∀ d, pre = some d → (d.map Prod.fst).Nodup) :
    ∀ (res : Option (List ResultEntry)) (cache' : Cache),
    processFileRecursive env f iw cache pre = .ok (res, cache') →
    CacheOk env cache'
    ∧ (∀ entries, res = some entries →
        ((entries.filterMap (fun e => e.path)).Nodup
         ∧ ((entryPathPairs entries).map Prod.fst).Nodup)) := by
  intro res cache' h
  obtain ⟨hv1, hok1⟩ := lazyCompute_cacheok env cache "dep" f env.deps hok rfl
  obtain ⟨hv2, hok2⟩ :=
    lazyCompute_cacheok env (lazyCompute cache "dep" f env.deps).2 "imp" f env.imps hok1 rfl
  have hmerged : ((mergeDict pre (some (lazyCompute cache "dep" f env.deps).1)).map
      Prod.fst).Nodup := by
    have hfresh : (lazyCompute cache "dep" f env.deps).1 = env.deps f := hv1
    rw [hfresh]
    cases pre with
    | none =>
      rw [mergeDict_none_keys]
      exact henv f
    | some d =>
      exact mergeDict_keys_nodup d (env.deps f) (hpre d rfl) (henv f)
  rw [processFileRecursive_unfold] at h
  by_cases hlen : (lazyCompute (lazyCompute cache "dep" f env.deps).2
      "imp" f env.imps).1.length < 1
  · rw [if_pos hlen] at h
    injection h with h1
    rw [Prod.mk.injEq] at h1
    obtain ⟨h1, h2⟩ := h1
    subst h1
    subst h2
    refine ⟨hok2, ?_⟩
    intro entries hent
    exact absurd hent (by simp)
  · rw [if_neg hlen] at h
    cases hbe : buildExported env (mergeDict pre (some (lazyCompute cache "dep" f env.deps).1))
        (lazyCompute (lazyCompute cache "dep" f env.deps).2 "imp" f env.imps).2 with
    | error e =>
      rw [hbe] at h
      exact absurd h (by simp)
    | ok pr =>
      obtain ⟨ex, cache''⟩ := pr
      rw [hbe] at h
      obtain ⟨hex, hok3⟩ := buildExported_spec env _ _ hok2 ex cache'' hbe
      injection h with h1
      rw [Prod.mk.injEq] at h1
      obtain ⟨h1, h2⟩ := h1
      subst h1
      subst h2
      refine ⟨hok3, ?_⟩
      intro entries hent
      injection hent with hent
      subst hent
      have hexp : ∀ p q : String × String,
          [p, q].Sublist (mergeDict pre (some (lazyCompute cache "dep" f env.deps).1)) →
          p.2 = q.2 →
          dictFindD ex p.1 [] = dictFindD ex q.1 [] := by
        intro p q hsub hpath
        have hp : p ∈ mergeDict pre (some (lazyCompute cache "dep" f env.deps).1) :=
          hsub.subset (by simp)
        have hq : q ∈ mergeDict pre (some (lazyCompute cache "dep" f env.deps).1) :=
          hsub.subset (by simp)
        rw [hex]
        rw [dictFindD_map_exps env.exps _ p hp hmerged,
            dictFindD_map_exps env.exps _ q hq hmerged, hpath]
      exact ⟨resolveSymbols_paths_nodup iw _ _ ex hmerged hexp,
        resolveSymbols_pathPairs_keys_nodup iw _ _ ex hmerged⟩

theorem lazyCompute_memo (cache : Cache) (cat key : String)
    (f g : String → List (String × String)) :
    lazyCompute (lazyCompute cache cat key f).2 cat key g
      = ((lazyCompute cache cat key f).1, (lazyCompute cache cat key f).2) := by
  cases hf : dictFind cache (cat, key) with
  | some v =>
    rw [lazyCompute_hit cache cat key f v hf]
    exact lazyCompute_hit cache cat key g v hf
  | none =>
    rw [lazyCompute_miss cache cat key f hf]
    have hf2 : dictFind (cache ++ [((cat, key), f key)]) (cat, key)
        = some (f key) := by
      rw [dictFind_append, hf]
      simp [dictFind, List.find?, Option.or]
    exact lazyCompute_hit _ cat key g (f key) hf2

/-- The invariant the work queue of `process_file` maintains: queued
sonames are distinct and already marked visited, every dequeued path was
visited when it was enqueued and is dequeued at most once, queued preload
maps have distinct keys, and the cache only stores environment facts. -/
structure LoopInv (env : Env) (st : LoopState) : Prop where
  pendNodup : (st.pending.map Prod.fst).Nodup
  pendVisited : ∀ p ∈ st.pending, p.1 ∈ st.visited
  procVisited : ∀ p ∈ st.processed, p ∈ st.visited
  procNodup : st.processed.Nodup
  procPend : ∀ p ∈ st.processed, p ∉ st.pending.map Prod.fst
  preOk : ∀ p ∈ st.pending, ∀ d, p.2 = some d → (d.map Prod.fst).Nodup
  cacheOk : CacheOk env st.cache

theorem loopStep_inv (env : Env) (recursive noPreload noFilter : Bool)
    (st : LoopState) (henv : EnvOk env) (hinv : LoopInv env st) :
    LoopInv env (loopStep env recursive noPreload noFilter st) := by
  obtain ⟨hpn, hpv, hprv, hprn, hpp, hpre, hco⟩ := hinv
  unfold loopStep
  cases hp : st.pending with
  | nil => exact ⟨hpn, hpv, hprv, hprn, hpp, hpre, hco⟩
  | cons hd rest =>
    obtain ⟨filename, preloaded⟩ := hd
    have hfk : filename ∈ st.pending.map Prod.fst := by rw [hp]; simp
    have hfv : filename ∈ st.visited :=
      hpv (filename, preloaded) (by rw [hp]; simp)
    have hfnp : filename ∉ st.processed := fun h => hpp filename h hfk
    have hcons : (filename :: rest.map Prod.fst).Nodup := by
      have h := hpn; rw [hp] at h; simpa using h
    have hrestn : (rest.map Prod.fst).Nodup := (List.nodup_cons.mp hcons).2
    have hfnr : filename ∉ rest.map Prod.fst := (List.nodup_cons.mp hcons).1
    have hrestv : ∀ p ∈ rest, p.1 ∈ st.visited := fun p h =>
      hpv p (by rw [hp]; exact List.mem_cons_of_mem _ h)
    have hrestpre : ∀ p ∈ rest, ∀ d, p.2 = some d → (d.map Prod.fst).Nodup :=
      fun p h => hpre p (by rw [hp]; exact List.mem_cons_of_mem _ h)
    have hppr : ∀ p ∈ st.processed, p ∉ rest.map Prod.fst := by
      intro p h hm
      exact hpp p h (by rw [hp]; exact List.mem_cons_of_mem _ hm)
    have hprn' : (st.processed ++ [filename]).Nodup := by
      rw [List.nodup_append]
      refine ⟨hprn, List.nodup_singleton _, ?_⟩
      intro a ha hb
      rw [List.mem_singleton] at hb
      exact hfnp (hb ▸ ha)
    have hprv' : ∀ p ∈ st.processed ++ [filename], p ∈ st.visited := by
      intro p h
      rcases List.mem_append.mp h with h | h
      · exact hprv p h
      · rw [List.mem_singleton] at h; exact h ▸ hfv
    have hppr' : ∀ p ∈ st.processed ++ [filename], p ∉ rest.map Prod.fst := by
      intro p h
      rcases List.mem_append.mp h with h | h
      · exact hppr p h
      · rw [List.mem_singleton] at h; exact h ▸ hfnr
    have hprehead : ∀ d, preloaded = some d → (d.map Prod.fst).Nodup :=
      fun d hq => hpre (filename, preloaded) (by rw [hp]; simp) d hq
    dsimp only
    cases hres : processFileRecursive env filename (!noFilter) st.cache preloaded with
    | error e => exact ⟨hrestn, hrestv, hprv', hprn', hppr', hrestpre, hco⟩
    | ok pr =>
      obtain ⟨result, cache'⟩ := pr
      obtain ⟨hco', hent⟩ := processFileRecursive_ok_spec env filename (!noFilter)
        st.cache preloaded henv hco hprehead result cache' hres
      dsimp only
      cases result with
      | none => exact ⟨hrestn, hrestv, hprv', hprn', hppr', hrestpre, hco'⟩
      | some entries =>
        dsimp only
        by_cases hlen : entries.length = 0
        · rw [if_pos hlen]
          exact ⟨hrestn, hrestv, hprv', hprn', hppr', hrestpre, hco'⟩
        · rw [if_neg hlen]
          obtain ⟨hpathsN, hpairsN⟩ := hent entries rfl
          cases hr : recursive with
          | false =>
            rw [if_neg Bool.false_ne_true]
            exact ⟨hrestn, hrestv, hprv', hprn', hppr', hrestpre, hco'⟩
          | true =>
            rw [if_pos rfl]
            refine ⟨?_, ?_, ?_, hprn', ?_, ?_, hco'⟩
            · show ((rest ++ ((entries.filterMap (fun e => e.path)).filter
                (fun p => !(st.visited.contains p))).map
                  (fun p => (p, if noPreload then none
                    else some (mergeDict preloaded
                      (some (entryPathPairs entries)))))).map Prod.fst).Nodup
              rw [List.map_append]
              have hmm : (((entries.filterMap (fun e => e.path)).filter
                  (fun p => !(st.visited.contains p))).map
                    (fun p => (p, if noPreload then none
                      else some (mergeDict preloaded
                        (some (entryPathPairs entries)))))).map Prod.fst
                  = (entries.filterMap (fun e => e.path)).filter
                      (fun p => !(st.visited.contains p)) := by
                rw [List.map_map]
                exact List.map_id _
              rw [hmm, List.nodup_append]
              refine ⟨hrestn, hpathsN.filter _, ?_⟩
              intro a ha hb
              have hav : a ∈ st.visited := by
                rcases List.mem_map.mp ha with ⟨p, hpm, hpe⟩
                exact hpe ▸ hrestv p hpm
              have hnb := (List.mem_filter.mp hb).2
              rw [Bool.not_eq_true', contains_eq_false_iff] at hnb
              exact hnb hav
            · intro p h
              rcases List.mem_append.mp h with h | h
              · exact List.mem_append.mpr (Or.inl (hrestv p h))
              · rcases List.mem_map.mp h with ⟨q, hqm, hqe⟩
                refine List.mem_append.mpr (Or.inr ?_)
                rw [← hqe]
                exact hqm
            · intro p h
              exact List.mem_append.mpr (Or.inl (hprv' p h))
            · intro p h
              rw [List.map_append]
              intro hm
              rcases List.mem_append.mp hm with hm | hm
              · exact hppr' p h hm
              · have hpvv : p ∈ st.visited := hprv' p h
                rcases List.mem_map.mp hm with ⟨q, hqm, hqe⟩
                rcases List.mem_map.mp hqm with ⟨r, hrm, hre⟩
                have hnb := (List.mem_filter.mp hrm).2
                rw [Bool.not_eq_true', contains_eq_false_iff] at hnb
                apply hnb
                have : r = p := by rw [← hre] at hqe; rw [← hqe]
                exact this ▸ hpvv
            · intro p h d hd
              rcases List.mem_append.mp h with h | h
              · exact hrestpre p h d hd
              · rcases List.mem_map.mp h with ⟨q, _, hqe⟩
                rw [← hqe] at hd
                have hd2 : (if noPreload then none
                    else some (mergeDict preloaded
                      (some (entryPathPairs entries)))) = some d := hd
                cases hnp : noPreload with
                | true => rw [hnp] at hd2; exact absurd hd2 (by simp)
                | false =>
                  rw [hnp] at hd2
                  rw [if_neg Bool.false_ne_true] at hd2
                  injection hd2 with hd3
                  rw [← hd3]
                  cases hq2 : preloaded with
                  | none =>
                    rw [mergeDict_none_keys]
                    exact hpairsN
                  | some dp =>
                    exact mergeDict_keys_nodup dp _ (hprehead dp hq2) hpairsN

theorem processLoop_inv (env : Env) (recursive noPreload noFilter : Bool)
    (henv : EnvOk env) :
    ∀ (fuel : Nat) (st : LoopState), LoopInv env st →
    LoopInv env (processLoop env recursive noPreload noFilter fuel st) := by
  intro fuel
  induction fuel with
  | zero => intro st h; exact h
  | succ n ih =>
    intro st h
    rw [processLoop]
    by_cases he : st.err.isSome
    · rw [if_pos he]; exact h
    · rw [if_neg he]
      cases hp : st.pending with
      | nil => exact h
      | cons a l =>
        exact ih _ (loopStep_inv env recursive noPreload noFilter st henv h)

theorem initial_inv (env : Env) (filename : String) (cache0 : Cache)
    (hco : CacheOk env cache0) :
    LoopInv env ⟨[], [filename], [(filename, none)], cache0, [], none⟩ := by
  refine ⟨?_, ?_, ?_, ?_, ?_, ?_, hco⟩
  · simp
  · intro p h
    rw [List.mem_singleton] at h
    rw [h]
    simp
  · intro p h; exact absurd h (List.not_mem_nil p)
  · exact List.nodup_nil
  · intro p h; exact absurd h (List.not_mem_nil p)
  · intro p h d hd
    rw [List.mem_singleton] at h
    rw [h] at hd
    exact absurd hd (by simp)

/-- A trivial environment: no image has dependencies, imports or exports. -/
def c8Env : Env where
  deps := fun _ => []
  imps := fun _ => []
  exps := fun _ => []
  readable := fun _ => true
  isExecutable := fun _ => true

/-- C8: within one run the `_lazy_compute` cache answers a second request
for the same (category, path) pair from the cache — the stored value comes
back and the cache is unchanged, whatever factory the second request
supplies, so each extraction factory runs at most once per pair — and the
recursive traversal of `process_file` dequeues each resolved path at most
once: the sequence of processed paths is duplicate-free, so diamond
dependency graphs collapse. -/
theorem cache_and_traversal_dedup (env : Env) (henv : EnvOk env) :
    (∀ (cache : Cache) (cat key : String)
        (f g : String → List (String × String)),
      lazyCompute (lazyCompute cache cat key f).2 cat key g
        = ((lazyCompute cache cat key f).1, (lazyCompute cache cat key f).2))
    ∧ ∀ (noPreload noFilter : Bool) (fuel : Nat) (filename : String)
        (cache0 : Cache), CacheOk env cache0 →
      (processLoop env true noPreload noFilter fuel
        ⟨[], [filename], [(filename, none)], cache0, [], none⟩).processed.Nodup := by
  refine ⟨fun cache cat key f g => lazyCompute_memo cache cat key f g, ?_⟩
  intro noPreload noFilter fuel filename cache0 hco
  exact (processLoop_inv env true noPreload noFilter henv fuel _
    (initial_inv env filename cache0 hco)).procNodup

/-- Witness for C8 at a concrete environment, cache and input. -/
theorem cache_and_traversal_dedup_witness :
    EnvOk c8Env
    ∧ CacheOk c8Env []
    ∧ lazyCompute (lazyCompute [] "exp" "libc.so" c8Env.exps).2 "exp" "libc.so"
        c8Env.exps
      = ((lazyCompute [] "exp" "libc.so" c8Env.exps).1,
         (lazyCompute [] "exp" "libc.so" c8Env.exps).2)
    ∧ (processLoop c8Env true false false 4
        ⟨[], ["app"], [("app", none)], [], [], none⟩).processed.Nodup :=
  have henv : EnvOk c8Env := fun _ => List.nodup_nil
  have hco : CacheOk c8Env [] := fun k v h => by
    simp [dictFind, List.find?] at h
  ⟨henv, hco,
    (cache_and_traversal_dedup c8Env henv).1 [] "exp" "libc.so" c8Env.exps c8Env.exps,
    (cache_and_traversal_dedup c8Env henv).2 false false 4 "app" [] hco⟩

end Dependencies
